import Mathlib

set_option maxHeartbeats 1000000

/-!
Verification of the minesweeper board engine of jeffchannell/mines-server.

The definitions below are a shallow embedding of `src/mines/game.go`
(package `mines`), the primary variant cited by the claims.  Machine
integers become `Nat` (with an explicit `% 65536` where the Go `uint16`
flag counter can wrap), timestamps become the boolean `ended` (the code
only ever tests `endedAt.IsZero()`), the global `math/rand` stream becomes
an explicit stream parameter, and the recursive `ClickTile` gets a fuel
parameter.  The per-turn uuid and timestamps carry no engine semantics and
are dropped from `Turn`.
-/

/-- One cell of the grid, mirroring `tile` in src/mines/game.go: `value` is
the adjacency count with 9 as the mine sentinel (`uint8` in Go), `flagged`
and `clicked` mirror the boolean fields. -/
structure Tile where
  value : Nat
  flagged : Bool
  clicked : Bool
deriving Repr, DecidableEq

instance : Inhabited Tile := ⟨⟨0, false, false⟩⟩

/-- One recorded turn, mirroring `turn` in src/mines/game.go (the uuid and
`takenAt` timestamp are dropped: the engine never reads them). -/
structure Turn where
  x : Nat
  y : Nat
  flag : Bool
  tiles : List Tile
deriving Repr, DecidableEq

instance : Inhabited Turn := ⟨⟨0, 0, false, []⟩⟩

/-- The game state, mirroring `Game` in src/mines/game.go.  `ended` stands
for `!endedAt.IsZero()`; the uuid and `startedAt` are dropped (no engine
semantics).  The Go `map[int]turn` history is only ever used as an array
indexed `0..len-1`, so it is a `List Turn` here (latest turn last). -/
structure Game where
  width : Nat
  height : Nat
  mines : Nat
  flags : Nat
  ended : Bool
  won : Bool
  history : List Turn
deriving Repr, DecidableEq

instance : Inhabited Game :=
  ⟨⟨0, 0, 0, 0, false, false, []⟩⟩

/-- Errors returned by `ClickTile`, one per `errors.New` site. -/
inductive MoveError where
  | oobX
  | oobY
  | notActive
deriving Repr, DecidableEq

/-- The tiles of the most recent turn: `g.history[len(g.history)-1].tiles`.
On an empty history the Go map lookup yields the zero `turn`, whose tile
slice is nil, hence `[]`. -/
def latestTiles (g : Game) : List Tile :=
  match g.history.getLast? with
  | some t => t.tiles
  | none => []

/-- In-place update of one tile of a tile slice (`tiles[i].field = v`). -/
def setTile (ts : List Tile) (i : Nat) (f : Tile → Tile) : List Tile :=
  ts.set i (f (ts.getD i default))

/-- Mutation through the Go pointer `&turn.tiles[...]` of the most recently
appended turn: rewrite the tiles of the last history entry. -/
def modifyLastTiles (g : Game) (f : List Tile → List Tile) : Game :=
  { g with history :=
      g.history.dropLast ++
        (match g.history.getLast? with
         | none => []
         | some t => [{ t with tiles := f t.tiles }]) }

/-- The eight neighbor offsets `(i, j)` in the order the Go loops visit
them: `j` (row offset) is the outer loop, `i` the inner, skipping `(0,0)`. -/
def offs : List (Int × Int) :=
  [(-1, -1), (0, -1), (1, -1), (-1, 0), (1, 0), (-1, 1), (0, 1), (1, 1)]

/-- The in-bounds neighbors of `(x, y)`, in loop order; mirrors the bounds
test `0 > x2 || 0 > y2 || x2 >= w || y2 >= h` done with `int` arithmetic. -/
def neighborsOf (w h x y : Nat) : List (Nat × Nat) :=
  offs.filterMap (fun d =>
    let x2 : Int := (x : Int) + d.1
    let y2 : Int := (y : Int) + d.2
    if x2 < 0 ∨ y2 < 0 ∨ (w : Int) ≤ x2 ∨ (h : Int) ≤ y2 then none
    else some (x2.toNat, y2.toNat))

/-- `countFlags` of src/mines/game.go: flagged neighbors of `(x, y)` in the
latest turn's tiles. -/
def countFlags (g : Game) (x y : Nat) : Nat :=
  ((neighborsOf g.width g.height x y).filter
    (fun p => ((latestTiles g).getD (g.width * p.2 + p.1) default).flagged)).length

/-- `End` of src/mines/game.go.  Note the body sets `g.won = true`
unconditionally, ignoring the `won` argument. -/
def End (g : Game) (won : Bool) : Game :=
  { g with ended := true, won := true }

/-- The win-condition scan at the end of `ClickTile`: it counts over the
tiles of the turn this call appended (index `idx` in the history; the local
`turn.tiles` pointer shares that backing array), not over the latest turn
appended by a recursive cascade call. -/
def winCheck (idx : Nat) (g : Game) : Game :=
  if g.ended then g
  else if ((g.history.getD idx default).tiles.countP (fun t => t.clicked || (t.value == 9)))
      = (g.history.getD idx default).tiles.length then End g true
  else g

/-- The neighbor loop of `clickNeighbors`: `snap` is the tile slice read
once from the latest turn at loop entry (Go captures `tiles` before the
loop, so recursive calls that append fresh copies do not refresh it), and
the recursive `ClickTile` result's error is discarded. -/
def foldNeighbors (w : Nat) (step : Game → Nat → Nat → Option (Game × Option MoveError))
    (snap : List Tile) : Game → List (Nat × Nat) → Option Game
  | g, [] => some g
  | g, p :: rest =>
    let t := snap.getD (w * p.2 + p.1) default
    if t.clicked = false ∧ t.flagged = false then
      match step g p.1 p.2 with
      | none => none
      | some r => foldNeighbors w step snap r.1 rest
    else foldNeighbors w step snap g rest

/-- `clickNeighbors` of src/mines/game.go. -/
def clickNeighbors (step : Game → Nat → Nat → Option (Game × Option MoveError))
    (g : Game) (x y : Nat) : Option Game :=
  foldNeighbors g.width step (latestTiles g) g (neighborsOf g.width g.height x y)

/-- The case dispatch of `ClickTile` after the turn has been appended and
the terminal guard passed: `g1` already holds the new turn as its last
history entry, and the targeted tile is read once (all Go reads of `*tile`
in the branch happen before any write).  Flag arithmetic is `uint16`. -/
def applyBranch (step : Game → Nat → Nat → Option (Game × Option MoveError))
    (g1 : Game) (x y : Nat) (flag : Bool) : Option Game :=
  let i := g1.width * y + x
  let t := (latestTiles g1).getD i default
  if t.clicked then
    if flag then some g1
    else if countFlags g1 x y = t.value then clickNeighbors step g1 x y
    else some g1
  else if t.flagged = false then
    if flag then
      some { modifyLastTiles g1 (fun ts => setTile ts i (fun u => { u with flagged := true })) with
               flags := (g1.flags + 1) % 65536 }
    else
      let g1c := modifyLastTiles g1 (fun ts => setTile ts i (fun u => { u with clicked := true }))
      if t.value = 9 then some { g1c with ended := true }
      else if t.value = 0 then clickNeighbors step g1c x y
      else some g1c
  else if t.flagged && flag then
    some { modifyLastTiles g1 (fun ts => setTile ts i (fun u => { u with flagged := false })) with
             flags := (g1.flags + 65535) % 65536 }
  else some g1

/-- `ClickTile` of src/mines/game.go.  `gen x y` stands for the tile slice
produced by `g.generateTiles(x, y)` on the first turn (the random placement
is factored out; see `generateTiles` below), and `fuel` bounds the
recursion depth of the cascade.  Faithful ordering: bounds checks first,
then the turn is appended to the history, and only then the terminal guard
runs — a rejected `notActive` move has already grown the history. -/
def ClickTile (gen : Nat → Nat → List Tile) :
    Nat → Game → Nat → Nat → Bool → Option (Game × Option MoveError)
  | 0, _, _, _, _ => none
  | fuel + 1, g, x, y, flag =>
    if g.width ≤ x then some (g, some MoveError.oobX)
    else if g.height ≤ y then some (g, some MoveError.oobY)
    else
      let tiles0 := if g.history.isEmpty then gen x y else latestTiles g
      let g1 : Game := { g with history := g.history ++ [⟨x, y, flag, tiles0⟩] }
      if g1.ended then some (g1, some MoveError.notActive)
      else
        match applyBranch (fun g2 a b => ClickTile gen fuel g2 a b false) g1 x y flag with
        | none => none
        | some g2 => some (winCheck g.history.length g2, none)

/-- `NewGame` of src/mines/game.go.  `maxM` is computed in `int`, so it can
be negative; the comparisons are therefore over `Int`. -/
def NewGame (w h m : Nat) : Option Game :=
  if 250 < w then none
  else if 250 < h then none
  else if (w : Int) * (h : Int) - 2 < (m : Int) then none
  else some { width := w, height := h, mines := m, flags := 0,
              ended := false, won := false, history := [] }

/-- The mine-placement loop of `generateTiles`: draw `(x, y)` from the
random stream `s` (two `rand.Intn` calls, modeled as given values reduced
`mod` the side lengths), skip the ignored cell and already-mined cells,
until `m` mines are placed; `fuel` bounds the retries. -/
def placeLoop (w h m ignX ignY : Nat) (s : Nat → Nat × Nat) :
    Nat → Nat → Nat → List Tile → Option (List Tile)
  | 0, _, cnt, ts => if m ≤ cnt then some ts else none
  | fuel + 1, k, cnt, ts =>
    if m ≤ cnt then some ts
    else
      let x := (s k).1 % w
      let y := (s k).2 % h
      if x = ignX ∧ y = ignY then placeLoop w h m ignX ignY s fuel (k + 1) cnt ts
      else if (ts.getD (w * y + x) default).value = 9 then
        placeLoop w h m ignX ignY s fuel (k + 1) cnt ts
      else placeLoop w h m ignX ignY s fuel (k + 1) (cnt + 1)
        (setTile ts (w * y + x) (fun u => { u with value := 9 }))

/-- Mined neighbors of `(x, y)`.  The Go numbering loop reads neighbor
values while other non-mine cells are being renumbered, but the `== 9` test
is stable (a non-mine value is always at most 8), so reading the original
slice is equivalent. -/
def mineCountAt (w h : Nat) (ts : List Tile) (x y : Nat) : Nat :=
  ((neighborsOf w h x y).filter
    (fun p => ((ts.getD (w * p.2 + p.1) default).value == 9))).length

/-- The numbering pass of `generateTiles`: every non-mine cell's value
becomes its mined-neighbor count (cell `i` sits at `x = i % w`,
`y = i / w`, matching the Go index `w*y + x`). -/
def numberTiles (w h : Nat) (ts : List Tile) : List Tile :=
  (List.range ts.length).map (fun i =>
    let t := ts.getD i default
    if t.value = 9 then t else { t with value := mineCountAt w h ts (i % w) (i / w) })

/-- `generateTiles` of src/mines/game.go: a fresh `height*width` slice,
mine placement avoiding `(ignX, ignY)`, then the numbering pass. -/
def generateTiles (w h m ignX ignY : Nat) (s : Nat → Nat × Nat) (fuel : Nat) :
    Option (List Tile) :=
  (placeLoop w h m ignX ignY s fuel 0 0 (List.replicate (h * w) default)).map
    (numberTiles w h)

/-- The per-cell symbol of the `JSON` grid, with `lost` standing for
`!g.won && !g.endedAt.IsZero()`. -/
def tileSymbol (lost won : Bool) (t : Tile) : String :=
  if lost && (t.value == 9) && !t.flagged then "9"
  else if lost && !(t.value == 9) && t.flagged then "X"
  else if t.flagged || (won && (t.value == 9)) then "!"
  else if !t.clicked then "?"
  else if t.value == 0 then ""
  else toString t.value

/-- The `grid` array of `JSON`: a `height*width` slice of empty strings,
overwritten per tile of the latest turn (so with an empty history every
entry stays the empty string). -/
def jsonGrid (g : Game) : List String :=
  let lost := !g.won && g.ended
  let ts := latestTiles g
  (List.range (g.height * g.width)).map (fun i =>
    if i < ts.length then tileSymbol lost g.won (ts.getD i default) else "")

/-- The `flags` field of `JSON`: the live counter, overwritten with the
total mine count on a won (and ended) game. -/
def jsonFlags (g : Game) : Nat :=
  if g.ended then (if g.won then g.mines else g.flags) else g.flags

/-- Whether `JSON` emits `"won": true` (only on an ended, won game). -/
def jsonWon (g : Game) : Bool :=
  g.ended && g.won

/-- Number of unrevealed tiles of a slice; the termination measure of the
cascade. -/
def unclickedCount (ts : List Tile) : Nat :=
  ts.countP (fun t => !t.clicked)

/-- Pointwise evolution of a tile slice during a cascade: lengths agree,
values and flags are unchanged, and revealed tiles stay revealed. -/
def TilesLe (ts ts' : List Tile) : Prop :=
  ts.length = ts'.length ∧
  ∀ i, i < ts.length →
    ((ts.getD i default).value = (ts'.getD i default).value ∧
     (ts.getD i default).flagged = (ts'.getD i default).flagged ∧
     ((ts.getD i default).clicked = true → (ts'.getD i default).clicked = true))

/-- What one recursive (reveal-mode) `ClickTile` call preserves about the
game: dimensions, mine and flag counters, monotone `ended`, the
`won → ended` implication, and `TilesLe` on the latest tiles. -/
def Pres (g g' : Game) : Prop :=
  g'.width = g.width ∧ g'.height = g.height ∧ g'.mines = g.mines ∧
  g'.flags = g.flags ∧
  (g.ended = true → g'.ended = true) ∧
  ((g.won = true → g.ended = true) → (g'.won = true → g'.ended = true)) ∧
  TilesLe (latestTiles g) (latestTiles g')

/-- Preservation statement for a full reveal-mode `ClickTile` call at a
given fuel. -/
def PresStep (gen : Nat → Nat → List Tile) (fuel : Nat) : Prop :=
  ∀ g x y g' e, g.history ≠ [] →
    ClickTile gen fuel g x y false = some (g', e) →
    Pres g g' ∧ ∃ ext, g'.history = g.history ++ ext

/-- Preservation statement for a `clickNeighbors` loop at a given fuel. -/
def PresFold (gen : Nat → Nat → List Tile) (fuel : Nat) : Prop :=
  ∀ w snap L g g', g.history ≠ [] →
    foldNeighbors w (fun g2 a b => ClickTile gen fuel g2 a b false) snap g L = some g' →
    Pres g g' ∧ ∃ ext, g'.history = g.history ++ ext

/-- States reachable from `NewGame` by `ClickTile` moves.  On the first
move (empty history) the generator must be a possible `generateTiles`
output for the clicked cell; afterwards the generator is never consulted. -/
inductive Reach : Game → Prop where
  | init : ∀ w h m g, NewGame w h m = some g → Reach g
  | step : ∀ g gen fuel x y flag g' e, Reach g →
      (g.history = [] →
        ∃ s pf, generateTiles g.width g.height g.mines x y s pf = some (gen x y)) →
      ClickTile gen fuel g x y flag = some (g', e) → Reach g'

/-- The invariant carried through reachable states for the flag-count
property: board dimensions in range, the `flags` counter equal to the
number of flagged tiles of the latest grid, a historyless board not yet
ended, and (once a move happened) a laid-out grid of `height*width`
tiles. -/
def FlagInv (g : Game) : Prop :=
  g.width ≤ 250 ∧ g.height ≤ 250 ∧
  g.flags = (latestTiles g).countP (fun t => t.flagged) ∧
  (g.history = [] → g.ended = false) ∧
  (g.history ≠ [] → (latestTiles g).length = g.height * g.width)

/-! Concrete scenario: a 2×2 board with one mine at `(1,1)`, used by the
counterexamples and witnesses below.  The stream `s10` makes `generateTiles`
place the single mine at `(1,1)`. -/

/-- Random stream that always yields `(1, 1)`. -/
def s10 : Nat → Nat × Nat := fun _ => (1, 1)

/-- The generated 2×2 grid with one mine at `(1,1)`. -/
def ts10 : List Tile := (generateTiles 2 2 1 0 0 s10 4).getD []

/-- Generator handing `ts10` to the first move. -/
def gen10 : Nat → Nat → List Tile := fun _ _ => ts10

/-- Fresh 2×2 one-mine game. -/
def G0 : Game := (NewGame 2 2 1).getD default

/-- After revealing `(0,0)` (value 1). -/
def G1 : Game := ((ClickTile gen10 9 G0 0 0 false).getD (G0, none)).1

/-- After additionally flagging `(1,0)` — a wrong flag, `(1,0)` is safe. -/
def G2 : Game := ((ClickTile gen10 9 G1 1 0 true).getD (G1, none)).1

/-- After chording `(0,0)`: the chord reveals the mine at `(1,1)`. -/
def G3 : Game := ((ClickTile gen10 9 G2 0 0 false).getD (G2, none)).1

/-- A further move attempt on the lost game `G3`. -/
def G4 : Game := ((ClickTile gen10 9 G3 0 1 false).getD (G3, none)).1

/-- From `G1`, revealing `(1,0)` instead: a plain numbered reveal. -/
def V2 : Game := ((ClickTile gen10 9 G1 1 0 false).getD (G1, none)).1

/-- Revealing `(0,1)`, the last non-mine: this move's own win scan finds
every tile revealed-or-mine and the game is won. -/
def V3 : Game := ((ClickTile gen10 9 V2 0 1 false).getD (V2, none)).1

/-- Random stream for the 2×1 zero-mine witness board. -/
def s20 : Nat → Nat × Nat := fun _ => (0, 0)

/-- The generated 2×1 grid with no mines. -/
def ts20 : List Tile := (generateTiles 2 1 0 0 0 s20 1).getD []

/-- Generator handing `ts20` to the first move. -/
def gen20 : Nat → Nat → List Tile := fun _ _ => ts20

/-- Fresh 2×1 zero-mine game. -/
def W0 : Game := (NewGame 2 1 0).getD default

/-- After revealing `(0,0)`: the cascade reveals everything and wins. -/
def W1 : Game := ((ClickTile gen20 9 W0 0 0 false).getD (W0, none)).1

/-! Concrete scenario: a 2×2 board with one mine at `(0,1)`.  Chording
`(0,0)` with a wrong flag on `(1,0)` hits the mine at `(0,1)` second in
loop order, so the third neighbor `(1,1)` is never revealed. -/

/-- Random stream that always yields `(0, 1)`. -/
def s30 : Nat → Nat × Nat := fun _ => (0, 1)

/-- The generated 2×2 grid with its mine at `(0,1)`. -/
def ts30 : List Tile := (generateTiles 2 2 1 0 0 s30 4).getD []

/-- Generator handing `ts30` to the first move. -/
def gen30 : Nat → Nat → List Tile := fun _ _ => ts30

/-- Fresh 2×2 one-mine game for the chord-abort scenario. -/
def H0 : Game := (NewGame 2 2 1).getD default

/-- After revealing `(0,0)`: value 1, plain reveal. -/
def H1 : Game := ((ClickTile gen30 9 H0 0 0 false).getD (H0, none)).1

/-- After flagging `(1,0)` — an incorrect flag on a non-mine. -/
def H2 : Game := ((ClickTile gen30 9 H1 1 0 true).getD (H1, none)).1

/-- After chording `(0,0)`: the chord reveals `(0,1)` — the mine — which
ends the game, and the remaining neighbor `(1,1)` stays unrevealed. -/
def H3 : Game := ((ClickTile gen30 9 H2 0 0 false).getD (H2, none)).1


/-! ### List and counting helpers -/

theorem getD_set_self (l : List Tile) (f : Tile → Tile) :
    ∀ i, i < l.length → (setTile l i f).getD i default = f (l.getD i default) := by
  induction l with
  | nil => intro i hi; simp at hi
  | cons a l ih =>
    intro i hi
    cases i with
    | zero => simp [setTile]
    | succ j =>
      simp only [setTile, List.getD_cons_succ, List.set_cons_succ]
      exact ih j (by simpa using hi)

theorem getD_set_ne (l : List Tile) (f : Tile → Tile) :
    ∀ i j, j ≠ i → (setTile l i f).getD j default = l.getD j default := by
  induction l with
  | nil => intro i j _; simp [setTile]
  | cons a l ih =>
    intro i j hne
    cases i with
    | zero =>
      cases j with
      | zero => exact absurd rfl hne
      | succ j' => simp [setTile]
    | succ i' =>
      cases j with
      | zero => simp [setTile]
      | succ j' =>
        simp only [setTile, List.getD_cons_succ, List.set_cons_succ]
        exact ih i' j' (fun h => hne (by omega))

theorem length_setTile (l : List Tile) (i : Nat) (f : Tile → Tile) :
    (setTile l i f).length = l.length :=
  List.length_set l i _

theorem countP_le_pointwise (p : Tile → Bool) :
    ∀ (l1 l2 : List Tile), l1.length = l2.length →
    (∀ j, j < l1.length → p (l1.getD j default) = true → p (l2.getD j default) = true) →
    l1.countP p ≤ l2.countP p := by
  intro l1
  induction l1 with
  | nil => intro l2 _ _; simp
  | cons a l ih =>
    intro l2 hlen h
    cases l2 with
    | nil => simp at hlen
    | cons b l2' =>
      have h0 := h 0 (by simp) 
      have hrest := fun j hj => h (j + 1) (by simpa using Nat.succ_lt_succ hj)
      simp only [List.getD_cons_zero, List.getD_cons_succ] at h0 hrest
      have := ih l2' (by simpa using hlen) hrest
      simp only [List.countP_cons]
      by_cases hpa : p a = true
      · rw [hpa, h0 hpa]; simp; omega
      · simp only [Bool.not_eq_true] at hpa
        rw [hpa]
        by_cases hpb : p b = true
        · rw [hpb]; simp; omega
        · simp only [Bool.not_eq_true] at hpb; rw [hpb]; simp; omega

theorem countP_eq_pointwise (p : Tile → Bool) :
    ∀ (l1 l2 : List Tile), l1.length = l2.length →
    (∀ j, j < l1.length → p (l1.getD j default) = p (l2.getD j default)) →
    l1.countP p = l2.countP p := by
  intro l1 l2 hlen h
  refine Nat.le_antisymm (countP_le_pointwise p l1 l2 hlen ?_) (countP_le_pointwise p l2 l1 hlen.symm ?_)
  · intro j hj hp; rw [← h j hj]; exact hp
  · intro j hj hp; rw [h j (by omega)]; exact hp

theorem countP_lt_pointwise (p : Tile → Bool) :
    ∀ (l1 l2 : List Tile) (j0 : Nat), l1.length = l2.length →
    (∀ j, j < l1.length → p (l1.getD j default) = true → p (l2.getD j default) = true) →
    j0 < l1.length → p (l1.getD j0 default) = false → p (l2.getD j0 default) = true →
    l1.countP p < l2.countP p := by
  intro l1
  induction l1 with
  | nil => intro l2 j0 _ _ hj0; simp at hj0
  | cons a l ih =>
    intro l2 j0 hlen h hj0 hp1 hp2
    cases l2 with
    | nil => simp at hlen
    | cons b l2' =>
      have h0 := h 0 (by simp)
      have hrest := fun j hj => h (j + 1) (by simpa using Nat.succ_lt_succ hj)
      simp only [List.getD_cons_zero, List.getD_cons_succ] at h0 hrest
      simp only [List.countP_cons]
      cases j0 with
      | zero =>
        simp only [List.getD_cons_zero] at hp1 hp2
        have hle := countP_le_pointwise p l l2' (by simpa using hlen) hrest
        rw [hp1, hp2]; simp; omega
      | succ j0' =>
        simp only [List.getD_cons_succ] at hp1 hp2
        have hlt := ih l2' j0' (by simpa using hlen) hrest (by simpa using hj0) hp1 hp2
        by_cases hpa : p a = true
        · rw [hpa, h0 hpa]; simp; omega
        · simp only [Bool.not_eq_true] at hpa
          rw [hpa]
          by_cases hpb : p b = true
          · rw [hpb]; simp; omega
          · simp only [Bool.not_eq_true] at hpb; rw [hpb]; simp; omega

theorem countP_pos (p : Tile → Bool) :
    ∀ (l : List Tile) i, i < l.length → p (l.getD i default) = true → 0 < l.countP p := by
  intro l
  induction l with
  | nil => intro i hi; simp at hi
  | cons a l ih =>
    intro i hi hp
    simp only [List.countP_cons]
    cases i with
    | zero => simp only [List.getD_cons_zero] at hp; rw [hp]; simp
    | succ j =>
      simp only [List.getD_cons_succ] at hp
      have := ih j (by simpa using hi) hp
      omega

theorem countP_set_true (p : Tile → Bool) :
    ∀ (l : List Tile) i (f : Tile → Tile), i < l.length →
    p (l.getD i default) = false → p (f (l.getD i default)) = true →
    (setTile l i f).countP p = l.countP p + 1 := by
  intro l
  induction l with
  | nil => intro i f hi; simp at hi
  | cons a l ih =>
    intro i f hi hp1 hp2
    cases i with
    | zero =>
      simp only [List.getD_cons_zero] at hp1 hp2
      simp only [setTile, List.getD_cons_zero, List.set_cons_zero, List.countP_cons, hp1, hp2]
      simp
    | succ j =>
      simp only [List.getD_cons_succ] at hp1 hp2
      have := ih j f (by simpa using hi) hp1 hp2
      simp only [setTile, List.getD_cons_succ, List.set_cons_succ, List.countP_cons] at this ⊢
      omega

theorem countP_set_false (p : Tile → Bool) :
    ∀ (l : List Tile) i (f : Tile → Tile), i < l.length →
    p (l.getD i default) = true → p (f (l.getD i default)) = false →
    (setTile l i f).countP p + 1 = l.countP p := by
  intro l
  induction l with
  | nil => intro i f hi; simp at hi
  | cons a l ih =>
    intro i f hi hp1 hp2
    cases i with
    | zero =>
      simp only [List.getD_cons_zero] at hp1 hp2
      simp only [setTile, List.getD_cons_zero, List.set_cons_zero, List.countP_cons, hp1, hp2]
      simp
    | succ j =>
      simp only [List.getD_cons_succ] at hp1 hp2
      have := ih j f (by simpa using hi) hp1 hp2
      simp only [setTile, List.getD_cons_succ, List.set_cons_succ, List.countP_cons] at this ⊢
      omega

/-! ### Index arithmetic of the `w*y + x` grid layout -/

theorem idx_lt (w h x y : Nat) (hx : x < w) (hy : y < h) : w * y + x < h * w := by
  have h1 : w * y + x < w * (y + 1) := by
    have : w * (y + 1) = w * y + w := by ring
    omega
  have h2 : w * (y + 1) ≤ w * h := Nat.mul_le_mul_left w hy
  have : w * h = h * w := Nat.mul_comm w h
  omega

theorem idx_inj (w x1 y1 x2 y2 : Nat) (hx1 : x1 < w) (hx2 : x2 < w)
    (h : w * y1 + x1 = w * y2 + x2) : x1 = x2 ∧ y1 = y2 := by
  have hw : 0 < w := by omega
  have e1 : (w * y1 + x1) % w = x1 % w := Nat.mul_add_mod w y1 x1
  have e2 : (w * y2 + x2) % w = x2 % w := Nat.mul_add_mod w y2 x2
  have m1 : x1 % w = x1 := Nat.mod_eq_of_lt hx1
  have m2 : x2 % w = x2 := Nat.mod_eq_of_lt hx2
  have hx : x1 = x2 := by rw [← m1, ← e1, h, e2, m2]
  refine ⟨hx, ?_⟩
  have d1 : (w * y1 + x1) / w = y1 + x1 / w := Nat.mul_add_div hw y1 x1
  have d2 : (w * y2 + x2) / w = y2 + x2 / w := Nat.mul_add_div hw y2 x2
  have dx1 : x1 / w = 0 := Nat.div_eq_of_lt hx1
  have dx2 : x2 / w = 0 := Nat.div_eq_of_lt hx2
  rw [h] at d1
  omega

/-! ### Neighbor list facts -/

theorem mem_neighborsOf (w h x y : Nat) (p : Nat × Nat) (hp : p ∈ neighborsOf w h x y) :
    p.1 < w ∧ p.2 < h := by
  simp only [neighborsOf, List.mem_filterMap] at hp
  obtain ⟨d, _, hd⟩ := hp
  by_cases hc : ((x : Int) + d.1 < 0 ∨ (y : Int) + d.2 < 0 ∨
      (w : Int) ≤ (x : Int) + d.1 ∨ (h : Int) ≤ (y : Int) + d.2)
  · simp [hc] at hd
  · simp only [hc, if_false] at hd
    push_neg at hc
    obtain ⟨h1, h2, h3, h4⟩ := hc
    cases hd
    constructor
    · omega
    · omega

/-! ### History and latest-turn facts -/

theorem latestTiles_concat (g : Game) (l : List Turn) (t : Turn) (h : g.history = l ++ [t]) :
    latestTiles g = t.tiles := by
  simp [latestTiles, h, List.getLast?_concat]

theorem modifyLastTiles_concat (g : Game) (l : List Turn) (t : Turn) (f : List Tile → List Tile)
    (h : g.history = l ++ [t]) :
    (modifyLastTiles g f).history = l ++ [{ t with tiles := f t.tiles }] := by
  simp [modifyLastTiles, h, List.getLast?_concat, List.dropLast_concat]

theorem history_decomp (g : Game) (h : g.history ≠ []) :
    ∃ l t, g.history = l ++ [t] ∧ latestTiles g = t.tiles := by
  rcases List.eq_nil_or_concat g.history with h0 | ⟨l, t, hlt⟩
  · exact absurd h0 h
  · rw [List.concat_eq_append] at hlt
    exact ⟨l, t, hlt, latestTiles_concat g l t hlt⟩

theorem tilesLe_refl (ts : List Tile) : TilesLe ts ts :=
  ⟨rfl, fun _ _ => ⟨rfl, rfl, id⟩⟩

theorem tilesLe_trans {a b c : List Tile} (h1 : TilesLe a b) (h2 : TilesLe b c) :
    TilesLe a c := by
  obtain ⟨l1, p1⟩ := h1
  obtain ⟨l2, p2⟩ := h2
  refine ⟨l1.trans l2, fun i hi => ?_⟩
  obtain ⟨v1, f1, c1⟩ := p1 i hi
  obtain ⟨v2, f2, c2⟩ := p2 i (by omega)
  exact ⟨v1.trans v2, f1.trans f2, fun h => c2 (c1 h)⟩

theorem tilesLe_set_clicked (ts : List Tile) (i : Nat) :
    TilesLe ts (setTile ts i (fun u => { u with clicked := true })) := by
  refine ⟨(length_setTile ts i _).symm, fun j hj => ?_⟩
  by_cases hji : j = i
  · subst hji
    rw [getD_set_self ts _ j hj]
    exact ⟨rfl, rfl, fun _ => rfl⟩
  · rw [getD_set_ne ts _ i j hji]
    exact ⟨rfl, rfl, id⟩

theorem pres_refl (g : Game) : Pres g g :=
  ⟨rfl, rfl, rfl, rfl, id, id, tilesLe_refl _⟩

theorem pres_trans {a b c : Game} (h1 : Pres a b) (h2 : Pres b c) : Pres a c := by
  obtain ⟨w1, h1', m1, f1, e1, we1, t1⟩ := h1
  obtain ⟨w2, h2', m2, f2, e2, we2, t2⟩ := h2
  exact ⟨w2.trans w1, h2'.trans h1', m2.trans m1, f2.trans f1,
    fun h => e2 (e1 h), fun h => we2 (we1 h), tilesLe_trans t1 t2⟩

theorem winCheck_cases (idx : Nat) (g : Game) :
    winCheck idx g = g ∨ (winCheck idx g = End g true ∧ g.ended = false) := by
  unfold winCheck
  split
  · exact Or.inl rfl
  · split
    · rename_i hend _
      exact Or.inr ⟨rfl, by simpa using hend⟩
    · exact Or.inl rfl

theorem pres_winCheck (idx : Nat) (g : Game) :
    Pres g (winCheck idx g) ∧ (winCheck idx g).history = g.history := by
  rcases winCheck_cases idx g with h | ⟨h, _⟩
  · rw [h]; exact ⟨pres_refl g, rfl⟩
  · rw [h]
    exact ⟨⟨rfl, rfl, rfl, rfl, fun _ => rfl, fun _ _ => rfl, tilesLe_refl _⟩, rfl⟩

theorem pres_append_turn (g : Game) (x y : Nat) (flag : Bool) :
    Pres g { g with history := g.history ++ [⟨x, y, flag, latestTiles g⟩] } := by
  refine ⟨rfl, rfl, rfl, rfl, id, id, ?_⟩
  have h1 : latestTiles { g with history := g.history ++ [⟨x, y, flag, latestTiles g⟩] }
      = latestTiles g :=
    latestTiles_concat { g with history := g.history ++ [⟨x, y, flag, latestTiles g⟩] }
      g.history ⟨x, y, flag, latestTiles g⟩ rfl
  rw [h1]
  exact tilesLe_refl _

/-! ### The amended C3 statement: what a rejected move does to the state -/

/-- C3 (amended): a rejected move mutates nothing except that a
`notActive` rejection has already appended the turn record (holding the
generated tiles on a first move, else a copy of the latest tiles); an
out-of-bounds rejection leaves the `Game` entirely unchanged. -/
theorem rejected_move_effect (gen : Nat → Nat → List Tile) (fuel : Nat)
    (g : Game) (x y : Nat) (flag : Bool) (g' : Game) (e : MoveError)
    (h : ClickTile gen fuel g x y flag = some (g', some e)) :
    ((e = MoveError.oobX ∨ e = MoveError.oobY) → g' = g) ∧
    (e = MoveError.notActive →
      g'.flags = g.flags ∧ g'.ended = g.ended ∧ g'.won = g.won ∧
      latestTiles g' = (if g.history.isEmpty then gen x y else latestTiles g) ∧
      g' = { g with history := g.history ++
              [⟨x, y, flag, if g.history.isEmpty then gen x y else latestTiles g⟩] }) := by
  cases fuel with
  | zero => simp [ClickTile] at h
  | succ fuel =>
    simp only [ClickTile] at h
    split at h
    · rw [Option.some_inj] at h
      cases h
      constructor
      · intro _; rfl
      · intro habs; cases habs
    · split at h
      · rw [Option.some_inj] at h
        cases h
        constructor
        · intro _; rfl
        · intro habs; cases habs
      · split at h
        · rw [Option.some_inj] at h
          cases h
          constructor
          · rintro (habs | habs) <;> cases habs
          · intro _
            refine ⟨rfl, rfl, rfl, ?_, rfl⟩
            simp [latestTiles, List.getLast?_concat]
        · split at h
          · exact absurd h (by simp)
          · rw [Option.some_inj] at h
            cases h

/-! ### Shape lemmas: enumerating the outcomes of one move -/

theorem applyBranch_false_cases (step : Game → Nat → Nat → Option (Game × Option MoveError))
    (g1 : Game) (x y : Nat) (g2 : Game)
    (h : applyBranch step g1 x y false = some g2) :
    (((latestTiles g1).getD (g1.width * y + x) default).clicked = true ∧
      ((countFlags g1 x y = ((latestTiles g1).getD (g1.width * y + x) default).value ∧
          clickNeighbors step g1 x y = some g2) ∨
       (countFlags g1 x y ≠ ((latestTiles g1).getD (g1.width * y + x) default).value ∧
          g2 = g1))) ∨
    (((latestTiles g1).getD (g1.width * y + x) default).clicked = false ∧
     ((latestTiles g1).getD (g1.width * y + x) default).flagged = false ∧
      ((((latestTiles g1).getD (g1.width * y + x) default).value = 9 ∧
          g2 = { modifyLastTiles g1 (fun ts => setTile ts (g1.width * y + x)
                  (fun u => { u with clicked := true })) with ended := true }) ∨
       (((latestTiles g1).getD (g1.width * y + x) default).value ≠ 9 ∧
        ((latestTiles g1).getD (g1.width * y + x) default).value = 0 ∧
          clickNeighbors step (modifyLastTiles g1 (fun ts => setTile ts (g1.width * y + x)
                  (fun u => { u with clicked := true }))) x y = some g2) ∨
       (((latestTiles g1).getD (g1.width * y + x) default).value ≠ 9 ∧
        ((latestTiles g1).getD (g1.width * y + x) default).value ≠ 0 ∧
          g2 = modifyLastTiles g1 (fun ts => setTile ts (g1.width * y + x)
                  (fun u => { u with clicked := true }))))) ∨
    (((latestTiles g1).getD (g1.width * y + x) default).clicked = false ∧
     ((latestTiles g1).getD (g1.width * y + x) default).flagged = true ∧ g2 = g1) := by
  unfold applyBranch at h
  simp only [Bool.false_eq_true, if_false, Bool.and_false] at h
  split at h
  · split at h
    · rename_i hc hf
      exact Or.inl ⟨by simpa using hc, Or.inl ⟨by simpa using hf, h⟩⟩
    · rename_i hc hf
      rw [Option.some_inj] at h
      exact Or.inl ⟨by simpa using hc, Or.inr ⟨by simpa using hf, h.symm⟩⟩
  · split at h
    · split at h
      · rename_i hc hf hv
        rw [Option.some_inj] at h
        exact Or.inr (Or.inl ⟨by simpa using hc, by simpa using hf, Or.inl ⟨hv, h.symm⟩⟩)
      · split at h
        · rename_i hc hf hv hv0
          exact Or.inr (Or.inl ⟨by simpa using hc, by simpa using hf,
            Or.inr (Or.inl ⟨hv, hv0, h⟩)⟩)
        · rename_i hc hf hv hv0
          rw [Option.some_inj] at h
          exact Or.inr (Or.inl ⟨by simpa using hc, by simpa using hf,
            Or.inr (Or.inr ⟨hv, hv0, h.symm⟩)⟩)
    · rename_i hc hf
      rw [Option.some_inj] at h
      refine Or.inr (Or.inr ⟨by simpa using hc, ?_, h.symm⟩)
      simpa using hf

theorem applyBranch_true_cases (step : Game → Nat → Nat → Option (Game × Option MoveError))
    (g1 : Game) (x y : Nat) (g2 : Game)
    (h : applyBranch step g1 x y true = some g2) :
    (((latestTiles g1).getD (g1.width * y + x) default).clicked = true ∧ g2 = g1) ∨
    (((latestTiles g1).getD (g1.width * y + x) default).clicked = false ∧
     ((latestTiles g1).getD (g1.width * y + x) default).flagged = false ∧
      g2 = { modifyLastTiles g1 (fun ts => setTile ts (g1.width * y + x)
              (fun u => { u with flagged := true })) with flags := (g1.flags + 1) % 65536 }) ∨
    (((latestTiles g1).getD (g1.width * y + x) default).clicked = false ∧
     ((latestTiles g1).getD (g1.width * y + x) default).flagged = true ∧
      g2 = { modifyLastTiles g1 (fun ts => setTile ts (g1.width * y + x)
              (fun u => { u with flagged := false })) with flags := (g1.flags + 65535) % 65536 }) := by
  unfold applyBranch at h
  simp only [if_true] at h
  split at h
  · rename_i hc
    rw [Option.some_inj] at h
    exact Or.inl ⟨by simpa using hc, h.symm⟩
  · split at h
    · rename_i hc hf
      rw [Option.some_inj] at h
      exact Or.inr (Or.inl ⟨by simpa using hc, by simpa using hf, h.symm⟩)
    · rename_i hc hf
      split at h
      · rename_i hff
        rw [Option.some_inj] at h
        refine Or.inr (Or.inr ⟨by simpa using hc, ?_, h.symm⟩)
        simpa using hff
      · rename_i hff
        rw [Bool.and_true] at hff
        exact absurd (by simpa using hf) hff

theorem ClickTile_succ_shape (gen : Nat → Nat → List Tile) (fuel : Nat) (g : Game)
    (x y : Nat) (flag : Bool) (r : Game × Option MoveError)
    (h : ClickTile gen (fuel + 1) g x y flag = some r) :
    (g.width ≤ x ∧ r = (g, some MoveError.oobX)) ∨
    (x < g.width ∧ g.height ≤ y ∧ r = (g, some MoveError.oobY)) ∨
    (x < g.width ∧ y < g.height ∧
      ((g.ended = true ∧
         r = ({ g with history := g.history ++
                [⟨x, y, flag, if g.history.isEmpty then gen x y else latestTiles g⟩] },
              some MoveError.notActive)) ∨
       (g.ended = false ∧ ∃ g2,
         applyBranch (fun g3 a b => ClickTile gen fuel g3 a b false)
           { g with history := g.history ++
              [⟨x, y, flag, if g.history.isEmpty then gen x y else latestTiles g⟩] }
           x y flag = some g2 ∧
         r = (winCheck g.history.length g2, none)))) := by
  simp only [ClickTile] at h
  split at h
  · rename_i hx
    rw [Option.some_inj] at h
    exact Or.inl ⟨hx, h.symm⟩
  · rename_i hx
    split at h
    · rename_i hy
      rw [Option.some_inj] at h
      exact Or.inr (Or.inl ⟨by omega, hy, h.symm⟩)
    · rename_i hy
      split at h
      · rename_i hend
        rw [Option.some_inj] at h
        refine Or.inr (Or.inr ⟨by omega, by omega, Or.inl ⟨by simpa using hend, h.symm⟩⟩)
      · rename_i hend
        split at h
        · exact absurd h (by simp)
        · rename_i g2 happ
          rw [Option.some_inj] at h
          refine Or.inr (Or.inr ⟨by omega, by omega, Or.inr ⟨?_, g2, happ, h.symm⟩⟩)
          simpa using hend

/-! ### Preservation of a reveal-mode move -/

theorem pres_modifyLast_clicked (g : Game) (l : List Turn) (t : Turn) (i : Nat)
    (h : g.history = l ++ [t]) :
    Pres g (modifyLastTiles g (fun ts => setTile ts i (fun u => { u with clicked := true }))) ∧
    (modifyLastTiles g (fun ts => setTile ts i (fun u => { u with clicked := true }))).history
      = l ++ [{ t with tiles := setTile t.tiles i (fun u => { u with clicked := true }) }] ∧
    latestTiles (modifyLastTiles g (fun ts => setTile ts i (fun u => { u with clicked := true })))
      = setTile t.tiles i (fun u => { u with clicked := true }) := by
  have hh := modifyLastTiles_concat g l t
    (fun ts => setTile ts i (fun u => { u with clicked := true })) h
  have hl := latestTiles_concat
    (modifyLastTiles g (fun ts => setTile ts i (fun u => { u with clicked := true })))
    l { t with tiles := setTile t.tiles i (fun u => { u with clicked := true }) } hh
  refine ⟨⟨rfl, rfl, rfl, rfl, id, id, ?_⟩, hh, hl⟩
  rw [latestTiles_concat g l t h, hl]
  exact tilesLe_set_clicked t.tiles i

theorem presStep_zero (gen : Nat → Nat → List Tile) : PresStep gen 0 := by
  intro g x y g' e _ h
  simp [ClickTile] at h

theorem presFold_of_step (gen : Nat → Nat → List Tile) (fuel : Nat)
    (hs : PresStep gen fuel) : PresFold gen fuel := by
  intro w snap L
  induction L with
  | nil =>
    intro g g' hne h
    simp only [foldNeighbors, Option.some_inj] at h
    exact h ▸ ⟨pres_refl g, [], by simp⟩
  | cons p rest ih =>
    intro g g' hne h
    simp only [foldNeighbors] at h
    split at h
    · split at h
      · exact absurd h (by simp)
      · rename_i r hr
        have hchild := hs g p.1 p.2 r.1 r.2 hne (by rw [hr])
        obtain ⟨hp1, ext1, hext1⟩ := hchild
        have hne1 : r.1.history ≠ [] := by
          rw [hext1]
          intro habs
          exact hne (List.append_eq_nil.mp habs).1
        obtain ⟨hp2, ext2, hext2⟩ := ih r.1 g' hne1 h
        exact ⟨pres_trans hp1 hp2, ext1 ++ ext2, by rw [hext2, hext1, List.append_assoc]⟩
    · exact ih g g' hne h

theorem pres_branch (gen : Nat → Nat → List Tile) (fuel : Nat)
    (hf : PresFold gen fuel) (g1 : Game) (x y : Nat) (g2 : Game)
    (l : List Turn) (t : Turn) (hh : g1.history = l ++ [t])
    (happ : applyBranch (fun g3 a b => ClickTile gen fuel g3 a b false) g1 x y false = some g2) :
    Pres g1 g2 ∧ ∃ ext, g2.history = l ++ ext := by
  have hne1 : g1.history ≠ [] := by rw [hh]; simp
  rcases applyBranch_false_cases _ _ x y g2 happ with
    ⟨_, ⟨_, hfold⟩ | ⟨_, hg2⟩⟩ | ⟨_, _, hcases⟩ | ⟨_, _, hg2⟩
  · -- chord: neighbors loop from g1
    obtain ⟨hp2, ext2, hext2⟩ := hf _ _ _ _ _ hne1 hfold
    refine ⟨hp2, [t] ++ ext2, ?_⟩
    rw [hext2, hh, List.append_assoc]
  · -- chord mismatch: no-op
    subst hg2
    exact ⟨pres_refl _, [t], hh⟩
  · -- reveal cases: shared facts about the clicked state g1c
    obtain ⟨hpc, hhistc, _⟩ := pres_modifyLast_clicked g1 l t (g1.width * y + x) hh
    have hnec : (modifyLastTiles g1 (fun ts => setTile ts (g1.width * y + x)
        (fun u => { u with clicked := true }))).history ≠ [] := by
      rw [hhistc]; simp
    rcases hcases with ⟨_, hg2⟩ | ⟨_, _, hfold⟩ | ⟨_, _, hg2⟩
    · -- mine: freeze the game
      subst hg2
      refine ⟨pres_trans hpc ⟨rfl, rfl, rfl, rfl, fun _ => rfl, fun _ _ => rfl, tilesLe_refl _⟩, ?_⟩
      exact ⟨_, hhistc⟩
    · -- zero adjacency: cascade from g1c
      obtain ⟨hp2, ext2, hext2⟩ := hf _ _ _ _ _ hnec hfold
      refine ⟨pres_trans hpc hp2, ?_⟩
      exact ⟨_, by rw [hext2, hhistc, List.append_assoc]⟩
    · -- numbered tile: just the reveal
      subst hg2
      exact ⟨hpc, _, hhistc⟩
  · -- flagged tile, reveal attempt: no-op
    subst hg2
    exact ⟨pres_refl _, [t], hh⟩

theorem presStep_succ (gen : Nat → Nat → List Tile) (fuel : Nat)
    (hf : PresFold gen fuel) : PresStep gen (fuel + 1) := by
  intro g x y g' e hne h
  rcases ClickTile_succ_shape gen fuel g x y false (g', e) h with
    ⟨_, hr⟩ | ⟨_, _, hr⟩ | ⟨hx, hy, hrest⟩
  · rw [Prod.mk.injEq] at hr
    obtain ⟨h1, _⟩ := hr
    subst h1
    exact ⟨pres_refl _, [], by simp⟩
  · rw [Prod.mk.injEq] at hr
    obtain ⟨h1, _⟩ := hr
    subst h1
    exact ⟨pres_refl _, [], by simp⟩
  · have ht0 : (if g.history.isEmpty then gen x y else latestTiles g) = latestTiles g := by
      simp [hne]
    rw [ht0] at hrest
    rcases hrest with ⟨hend, hr⟩ | ⟨hend, g2, happ, hr⟩
    · rw [Prod.mk.injEq] at hr
      obtain ⟨h1, _⟩ := hr
      subst h1
      exact ⟨pres_append_turn g x y false, [⟨x, y, false, latestTiles g⟩], rfl⟩
    · rw [Prod.mk.injEq] at hr
      obtain ⟨h1, _⟩ := hr
      subst h1
      obtain ⟨hpb, ext, hextb⟩ := pres_branch gen fuel hf
        { g with history := g.history ++ [⟨x, y, false, latestTiles g⟩] } x y g2
        g.history ⟨x, y, false, latestTiles g⟩ rfl happ
      refine ⟨pres_trans (pres_trans (pres_append_turn g x y false) hpb)
        (pres_winCheck g.history.length g2).1, ext, ?_⟩
      rw [(pres_winCheck g.history.length g2).2, hextb]

theorem presStep_all (gen : Nat → Nat → List Tile) : ∀ fuel, PresStep gen fuel := by
  intro fuel
  induction fuel with
  | zero => exact presStep_zero gen
  | succ n ih => exact presStep_succ gen n (presFold_of_step gen n ih)

theorem presFold_all (gen : Nat → Nat → List Tile) (fuel : Nat) : PresFold gen fuel :=
  presFold_of_step gen fuel (presStep_all gen fuel)

/-! ### Where fuel exhaustion can come from -/

theorem ClickTile_succ_none (gen : Nat → Nat → List Tile) (fuel : Nat) (g : Game)
    (x y : Nat) (flag : Bool)
    (h : ClickTile gen (fuel + 1) g x y flag = none) :
    x < g.width ∧ y < g.height ∧ g.ended = false ∧
    applyBranch (fun g3 a b => ClickTile gen fuel g3 a b false)
      { g with history := g.history ++
          [⟨x, y, flag, if g.history.isEmpty then gen x y else latestTiles g⟩] }
      x y flag = none := by
  simp only [ClickTile] at h
  split at h
  · exact absurd h (by simp)
  · rename_i hx
    split at h
    · exact absurd h (by simp)
    · rename_i hy
      split at h
      · exact absurd h (by simp)
      · rename_i hend
        split at h
        · rename_i happ
          exact ⟨by omega, by omega, by simpa using hend, happ⟩
        · exact absurd h (by simp)

theorem applyBranch_false_none (step : Game → Nat → Nat → Option (Game × Option MoveError))
    (g1 : Game) (x y : Nat)
    (h : applyBranch step g1 x y false = none) :
    (((latestTiles g1).getD (g1.width * y + x) default).clicked = true ∧
     countFlags g1 x y = ((latestTiles g1).getD (g1.width * y + x) default).value ∧
     clickNeighbors step g1 x y = none) ∨
    (((latestTiles g1).getD (g1.width * y + x) default).clicked = false ∧
     ((latestTiles g1).getD (g1.width * y + x) default).flagged = false ∧
     ((latestTiles g1).getD (g1.width * y + x) default).value = 0 ∧
     clickNeighbors step (modifyLastTiles g1 (fun ts => setTile ts (g1.width * y + x)
       (fun u => { u with clicked := true }))) x y = none) := by
  unfold applyBranch at h
  simp only [Bool.false_eq_true, if_false, Bool.and_false] at h
  split at h
  · split at h
    · rename_i hc hf
      exact Or.inl ⟨by simpa using hc, by simpa using hf, h⟩
    · exact absurd h (by simp)
  · split at h
    · split at h
      · exact absurd h (by simp)
      · split at h
        · rename_i hc hf hv hv0
          exact Or.inr ⟨by simpa using hc, by simpa using hf, hv0, h⟩
        · exact absurd h (by simp)
    · exact absurd h (by simp)

theorem applyBranch_true_total (step : Game → Nat → Nat → Option (Game × Option MoveError))
    (g1 : Game) (x y : Nat) :
    applyBranch step g1 x y true ≠ none := by
  intro h
  unfold applyBranch at h
  simp only [if_true] at h
  split at h
  · exact absurd h (by simp)
  · split at h
    · exact absurd h (by simp)
    · split at h
      · exact absurd h (by simp)
      · exact absurd h (by simp)

/-! ### The unclicked-count measure -/

theorem unclicked_zero (snap : List Tile) (h : unclickedCount snap = 0) :
    ∀ i, i < snap.length → (snap.getD i default).clicked = true := by
  intro i hi
  by_contra hc
  have hp : (fun t => !t.clicked) (snap.getD i default) = true := by
    simp [Bool.not_eq_true] at hc ⊢
    exact hc
  have := countP_pos (fun t => !t.clicked) snap i hi hp
  unfold unclickedCount at h
  omega

theorem unclicked_mono (ts ts' : List Tile) (h : TilesLe ts ts') :
    unclickedCount ts' ≤ unclickedCount ts := by
  obtain ⟨hlen, hpt⟩ := h
  refine countP_le_pointwise _ ts' ts hlen.symm ?_
  intro j hj hp
  have := (hpt j (by omega)).2.2
  simp only [Bool.not_eq_true'] at hp ⊢
  by_contra hc
  simp only [Bool.not_eq_false] at hc
  rw [this hc] at hp
  cases hp

theorem unclicked_lt_of_stale (ts ts' : List Tile) (i : Nat) (h : TilesLe ts ts')
    (hi : i < ts.length) (h1 : (ts.getD i default).clicked = false)
    (h2 : (ts'.getD i default).clicked = true) :
    unclickedCount ts' < unclickedCount ts := by
  obtain ⟨hlen, hpt⟩ := h
  refine countP_lt_pointwise _ ts' ts i hlen.symm ?_ (by omega)
    (by show (!(ts'.getD i default).clicked) = false; rw [h2]; rfl)
    (by show (!(ts.getD i default).clicked) = true; rw [h1]; rfl)
  intro j hj hp
  have := (hpt j (by omega)).2.2
  simp only [Bool.not_eq_true'] at hp ⊢
  by_contra hc
  simp only [Bool.not_eq_false] at hc
  rw [this hc] at hp
  cases hp

theorem unclicked_set (ts : List Tile) (i : Nat) (hi : i < ts.length)
    (h : (ts.getD i default).clicked = false) :
    unclickedCount (setTile ts i (fun u => { u with clicked := true })) + 1
      = unclickedCount ts := by
  refine countP_set_false _ ts i _ hi
    (by show (!(ts.getD i default).clicked) = true; rw [h]; rfl) (by rfl)

/-! ### Termination of the cascade -/

theorem fold_total (gen : Nat → Nat → List Tile) :
    ∀ u f, u + 1 ≤ f → ∀ L (g : Game) (snap : List Tile),
    g.history ≠ [] →
    (latestTiles g).length = g.width * g.height →
    TilesLe snap (latestTiles g) →
    unclickedCount snap ≤ u →
    (∀ p ∈ L, p.1 < g.width ∧ p.2 < g.height) →
    foldNeighbors g.width (fun g2 a b => ClickTile gen f g2 a b false) snap g L ≠ none := by
  intro u
  induction u with
  | zero =>
    intro f hfu L
    induction L with
    | nil =>
      intro g snap _ _ _ _ _
      simp [foldNeighbors]
    | cons p rest ihL =>
      intro g snap hne hlen hle hcnt hbnd
      simp only [foldNeighbors]
      have hpb := hbnd p (by simp)
      have hidx : g.width * p.2 + p.1 < snap.length := by
        rw [hle.1, hlen, Nat.mul_comm g.width g.height]
        exact idx_lt g.width g.height p.1 p.2 hpb.1 hpb.2
      have hcl := unclicked_zero snap (by omega) (g.width * p.2 + p.1) hidx
      rw [if_neg (by intro hg; rw [hg.1] at hcl; exact Bool.noConfusion hcl)]
      exact ihL g snap hne hlen hle hcnt (fun q hq => hbnd q (List.mem_cons_of_mem p hq))
  | succ u ihu =>
    intro f hfu L
    induction L with
    | nil =>
      intro g snap _ _ _ _ _
      simp [foldNeighbors]
    | cons p rest ihL =>
      intro g snap hne hlen hle hcnt hbnd
      simp only [foldNeighbors]
      have hpb := hbnd p (by simp)
      have hidx : g.width * p.2 + p.1 < snap.length := by
        rw [hle.1, hlen, Nat.mul_comm g.width g.height]
        exact idx_lt g.width g.height p.1 p.2 hpb.1 hpb.2
      by_cases hguard : (snap.getD (g.width * p.2 + p.1) default).clicked = false ∧
          (snap.getD (g.width * p.2 + p.1) default).flagged = false
      · rw [if_pos hguard]
        obtain ⟨f', rfl⟩ : ∃ f', f = f' + 1 := ⟨f - 1, by omega⟩
        have hchild : ClickTile gen (f' + 1) g p.1 p.2 false ≠ none := by
          intro hn
          obtain ⟨hx', hy', hend', happn⟩ := ClickTile_succ_none gen f' g p.1 p.2 false hn
          have ht0 : (if g.history.isEmpty then gen p.1 p.2 else latestTiles g)
              = latestTiles g := by simp [hne]
          rw [ht0] at happn
          set g1 : Game := { g with history := g.history ++ [⟨p.1, p.2, false, latestTiles g⟩] }
            with hg1
          have hlat1 : latestTiles g1 = latestTiles g :=
            latestTiles_concat g1 g.history ⟨p.1, p.2, false, latestTiles g⟩ (by rw [hg1])
          have hne1 : g1.history ≠ [] := by rw [hg1]; simp
          rcases applyBranch_false_none _ g1 p.1 p.2 happn with
            ⟨hck, _, hfn⟩ | ⟨hck, _, _, hfn⟩
          · -- stale chord: the cell is already revealed in the live grid
            have hlatck : ((latestTiles g).getD (g.width * p.2 + p.1) default).clicked = true := by
              rw [← hlat1]; exact hck
            have hUlt : unclickedCount (latestTiles g) < unclickedCount snap :=
              unclicked_lt_of_stale snap (latestTiles g) (g.width * p.2 + p.1) hle hidx
                hguard.1 hlatck
            have happly := ihu f' (by omega) (neighborsOf g1.width g1.height p.1 p.2)
              g1 (latestTiles g1) hne1
              (by rw [hlat1]; exact hlen)
              (tilesLe_refl _)
              (by rw [hlat1]; omega)
              (fun q hq => mem_neighborsOf g1.width g1.height p.1 p.2 q hq)
            exact happly hfn
          · -- fresh reveal of a zero tile: the click shrinks the measure
            have hlatuc : ((latestTiles g).getD (g.width * p.2 + p.1) default).clicked
                = false := by
              rw [← hlat1]; exact hck
            obtain ⟨_, hhistc, hlatc⟩ := pres_modifyLast_clicked g1 g.history
              ⟨p.1, p.2, false, latestTiles g⟩ (g1.width * p.2 + p.1) (by rw [hg1])
            have hlatc' : latestTiles (modifyLastTiles g1 (fun ts =>
                setTile ts (g1.width * p.2 + p.1) (fun u => { u with clicked := true })))
                = setTile (latestTiles g) (g.width * p.2 + p.1)
                    (fun u => { u with clicked := true }) := hlatc
            have hidxlt : g.width * p.2 + p.1 < (latestTiles g).length := by
              rw [← hle.1]; exact hidx
            have hudrop := unclicked_set (latestTiles g) (g.width * p.2 + p.1) hidxlt hlatuc
            have hUle : unclickedCount (latestTiles g) ≤ unclickedCount snap :=
              unclicked_mono snap _ hle
            have hnec : (modifyLastTiles g1 (fun ts =>
                setTile ts (g1.width * p.2 + p.1)
                  (fun u => { u with clicked := true }))).history ≠ [] := by
              rw [hhistc]; simp
            have happly := ihu f' (by omega)
              (neighborsOf (modifyLastTiles g1 (fun ts => setTile ts (g1.width * p.2 + p.1)
                  (fun u => { u with clicked := true }))).width
                (modifyLastTiles g1 (fun ts => setTile ts (g1.width * p.2 + p.1)
                  (fun u => { u with clicked := true }))).height p.1 p.2)
              (modifyLastTiles g1 (fun ts => setTile ts (g1.width * p.2 + p.1)
                (fun u => { u with clicked := true })))
              (latestTiles (modifyLastTiles g1 (fun ts => setTile ts (g1.width * p.2 + p.1)
                (fun u => { u with clicked := true }))))
              hnec
              (by rw [hlatc', length_setTile]; exact hlen)
              (tilesLe_refl _)
              (by rw [hlatc']; omega)
              (fun q hq => mem_neighborsOf _ _ p.1 p.2 q hq)
            exact happly hfn
        cases hc : ClickTile gen (f' + 1) g p.1 p.2 false with
        | none => exact absurd hc hchild
        | some r =>
          obtain ⟨⟨hw, hh, _, _, _, _, htl⟩, ext, hext⟩ :=
            presStep_all gen (f' + 1) g p.1 p.2 r.1 r.2 hne (by rw [hc])
          have hne' : r.1.history ≠ [] := by
            rw [hext]
            intro habs
            exact hne (List.append_eq_nil.mp habs).1
          have hlen' : (latestTiles r.1).length = r.1.width * r.1.height := by
            rw [← htl.1, hlen, hw, hh]
          have hle' : TilesLe snap (latestTiles r.1) := tilesLe_trans hle htl
          have happly := ihL r.1 snap hne' hlen' hle' hcnt
            (fun q hq => by
              rw [hw, hh]
              exact hbnd q (List.mem_cons_of_mem p hq))
          rw [hw] at happly
          exact happly
      · rw [if_neg hguard]
        exact ihL g snap hne hlen hle hcnt (fun q hq => hbnd q (List.mem_cons_of_mem p hq))

/-- C7: on a board whose mines are already placed (nonempty history, grid of
the full `width*height` size), every in-bounds `ClickTile` — reveal, flag or
chord — terminates: a fuel of `unclickedCount + 2` is never exhausted,
because every recursive step of the cascade is guarded by the target tile
being neither revealed nor flagged, and each plain reveal strictly
decreases the number of unrevealed tiles. -/
theorem C7_cascade_termination (gen : Nat → Nat → List Tile) (g : Game) (x y : Nat)
    (flag : Bool) (hne : g.history ≠ [])
    (hlen : (latestTiles g).length = g.width * g.height)
    (hx : x < g.width) (hy : y < g.height) :
    ClickTile gen (unclickedCount (latestTiles g) + 2) g x y flag ≠ none := by
  intro hn
  obtain ⟨hx', hy', hend, happn⟩ :=
    ClickTile_succ_none gen (unclickedCount (latestTiles g) + 1) g x y flag hn
  have ht0 : (if g.history.isEmpty then gen x y else latestTiles g) = latestTiles g := by
    simp [hne]
  rw [ht0] at happn
  set g1 : Game := { g with history := g.history ++ [⟨x, y, flag, latestTiles g⟩] } with hg1
  have hlat1 : latestTiles g1 = latestTiles g :=
    latestTiles_concat g1 g.history ⟨x, y, flag, latestTiles g⟩ (by rw [hg1])
  have hne1 : g1.history ≠ [] := by rw [hg1]; simp
  cases flag with
  | true => exact applyBranch_true_total _ g1 x y happn
  | false =>
    rcases applyBranch_false_none _ g1 x y happn with
      ⟨_, _, hfn⟩ | ⟨hck, _, _, hfn⟩
    · -- chord: its neighbor loop runs with the live snapshot
      have happly := fold_total gen (unclickedCount (latestTiles g))
        (unclickedCount (latestTiles g) + 1) (by omega)
        (neighborsOf g1.width g1.height x y) g1 (latestTiles g1) hne1
        (by rw [hlat1]; exact hlen)
        (tilesLe_refl _)
        (by rw [hlat1])
        (fun q hq => mem_neighborsOf g1.width g1.height x y q hq)
      exact happly hfn
    · -- fresh reveal of a zero tile: the cascade runs after the click
      have hlatuc : ((latestTiles g).getD (g.width * y + x) default).clicked = false := by
        rw [← hlat1]; exact hck
      obtain ⟨_, hhistc, hlatc⟩ := pres_modifyLast_clicked g1 g.history
        ⟨x, y, false, latestTiles g⟩ (g1.width * y + x) (by rw [hg1])
      have hlatc' : latestTiles (modifyLastTiles g1 (fun ts =>
          setTile ts (g1.width * y + x) (fun u => { u with clicked := true })))
          = setTile (latestTiles g) (g.width * y + x)
              (fun u => { u with clicked := true }) := hlatc
      have hidxlt : g.width * y + x < (latestTiles g).length := by
        rw [hlen, Nat.mul_comm g.width g.height]
        exact idx_lt g.width g.height x y hx hy
      have hudrop := unclicked_set (latestTiles g) (g.width * y + x) hidxlt hlatuc
      have hnec : (modifyLastTiles g1 (fun ts =>
          setTile ts (g1.width * y + x)
            (fun u => { u with clicked := true }))).history ≠ [] := by
        rw [hhistc]; simp
      have happly := fold_total gen (unclickedCount (latestTiles g))
        (unclickedCount (latestTiles g) + 1) (by omega)
        (neighborsOf (modifyLastTiles g1 (fun ts => setTile ts (g1.width * y + x)
            (fun u => { u with clicked := true }))).width
          (modifyLastTiles g1 (fun ts => setTile ts (g1.width * y + x)
            (fun u => { u with clicked := true }))).height x y)
        (modifyLastTiles g1 (fun ts => setTile ts (g1.width * y + x)
          (fun u => { u with clicked := true })))
        (latestTiles (modifyLastTiles g1 (fun ts => setTile ts (g1.width * y + x)
          (fun u => { u with clicked := true }))))
        hnec
        (by rw [hlatc', length_setTile]; exact hlen)
        (tilesLe_refl _)
        (by rw [hlatc']; omega)
        (fun q hq => mem_neighborsOf _ _ x y q hq)
      exact happly hfn

theorem C7_witness :
    ClickTile gen10 (unclickedCount (latestTiles G1) + 2) G1 1 0 false ≠ none :=
  C7_cascade_termination gen10 G1 1 0 false (by decide) (by decide) (by decide) (by decide)

/-! ### Mine generation: the safe-cell and exact-count invariants -/

theorem placeLoop_spec (w h m ignX ignY : Nat) (s : Nat → Nat × Nat)
    (hw : 0 < w) (hh : 0 < h) (hx : ignX < w) (hy : ignY < h) :
    ∀ fuel k cnt ts0 ts,
    ts0.length = h * w →
    ts0.countP (fun t => t.value == 9) = cnt →
    cnt ≤ m →
    (ts0.getD (w * ignY + ignX) default).value ≠ 9 →
    (∀ i, i < ts0.length →
      (ts0.getD i default).flagged = false ∧ (ts0.getD i default).clicked = false) →
    placeLoop w h m ignX ignY s fuel k cnt ts0 = some ts →
    (ts.length = h * w ∧ ts.countP (fun t => t.value == 9) = m ∧
     (ts.getD (w * ignY + ignX) default).value ≠ 9 ∧
     (∀ i, i < ts.length →
       (ts.getD i default).flagged = false ∧ (ts.getD i default).clicked = false)) := by
  intro fuel
  induction fuel with
  | zero =>
    intro k cnt ts0 ts hlen hcnt hle hsafe hfc heq
    simp only [placeLoop] at heq
    split at heq
    · rename_i hmc
      rw [Option.some_inj] at heq
      subst heq
      exact ⟨hlen, by omega, hsafe, hfc⟩
    · exact absurd heq (by simp)
  | succ fuel ih =>
    intro k cnt ts0 ts hlen hcnt hle hsafe hfc heq
    simp only [placeLoop] at heq
    split at heq
    · rename_i hmc
      rw [Option.some_inj] at heq
      subst heq
      exact ⟨hlen, by omega, hsafe, hfc⟩
    · rename_i hmc
      split at heq
      · exact ih (k + 1) cnt ts0 ts hlen hcnt hle hsafe hfc heq
      · split at heq
        · exact ih (k + 1) cnt ts0 ts hlen hcnt hle hsafe hfc heq
        · rename_i hign hval
          -- a new mine is placed at index j
          have hxw : (s k).1 % w < w := Nat.mod_lt _ hw
          have hyh : (s k).2 % h < h := Nat.mod_lt _ hh
          have hjlt : w * ((s k).2 % h) + (s k).1 % w < ts0.length := by
            rw [hlen]
            exact idx_lt w h ((s k).1 % w) ((s k).2 % h) hxw hyh
          refine ih (k + 1) (cnt + 1) _ ts ?_ ?_ (by omega) ?_ ?_ heq
          · rw [length_setTile, hlen]
          · refine (countP_set_true _ ts0 _ _ hjlt ?_ ?_).trans (by omega)
            · show (((ts0.getD (w * ((s k).2 % h) + (s k).1 % w) default).value == 9)
                  : Bool) = false
              simpa using hval
            · rfl
          · rw [getD_set_ne]
            · exact hsafe
            · intro hj
              obtain ⟨hx1, hy1⟩ := idx_inj w ignX ignY ((s k).1 % w) ((s k).2 % h) hx hxw hj
              exact hign ⟨hx1.symm, hy1.symm⟩
          · intro i hi
            rw [length_setTile] at hi
            by_cases hij : i = w * ((s k).2 % h) + (s k).1 % w
            · subst hij
              rw [getD_set_self _ _ _ hi]
              exact hfc _ hi
            · rw [getD_set_ne _ _ _ _ hij]
              exact hfc i hi

theorem getD_range_map {α : Type} (d : α) (n : Nat) (f : Nat → α) (i : Nat) (hi : i < n) :
    ((List.range n).map f).getD i d = f i := by
  rw [List.getD_eq_getElem?_getD, List.getElem?_map, List.getElem?_range hi]
  rfl

theorem numberTiles_length (w h : Nat) (ts : List Tile) :
    (numberTiles w h ts).length = ts.length := by
  simp [numberTiles]

theorem numberTiles_getD (w h : Nat) (ts : List Tile) (i : Nat) (hi : i < ts.length) :
    (numberTiles w h ts).getD i default =
      (if (ts.getD i default).value = 9 then ts.getD i default
       else { ts.getD i default with value := mineCountAt w h ts (i % w) (i / w) }) := by
  unfold numberTiles
  exact getD_range_map default ts.length _ i hi

theorem mineCountAt_le (w h : Nat) (ts : List Tile) (x y : Nat) :
    mineCountAt w h ts x y ≤ 8 := by
  unfold mineCountAt
  calc ((neighborsOf w h x y).filter _).length ≤ (neighborsOf w h x y).length :=
        List.length_filter_le _ _
    _ ≤ offs.length := List.length_filterMap_le _ _
    _ = 8 := rfl

theorem generateTiles_spec (w h m ignX ignY : Nat) (s : Nat → Nat × Nat) (fuel : Nat)
    (ts : List Tile) (hw : 0 < w) (hh : 0 < h) (hx : ignX < w) (hy : ignY < h)
    (hgen : generateTiles w h m ignX ignY s fuel = some ts) :
    ts.length = h * w ∧ ts.countP (fun t => t.value == 9) = m ∧
    (ts.getD (w * ignY + ignX) default).value ≠ 9 ∧
    (∀ i, i < ts.length →
      (ts.getD i default).flagged = false ∧ (ts.getD i default).clicked = false) := by
  unfold generateTiles at hgen
  cases hpl : placeLoop w h m ignX ignY s fuel 0 0 (List.replicate (h * w) default) with
  | none => rw [hpl] at hgen; exact absurd hgen (by simp)
  | some ts1 =>
    rw [hpl] at hgen
    simp only [Option.map_some', Option.some_inj] at hgen
    subst hgen
    have hrep : ∀ i, i < (List.replicate (h * w) (default : Tile)).length →
        (List.replicate (h * w) (default : Tile)).getD i default = default := by
      intro i hi
      rw [List.length_replicate] at hi
      rw [List.getD_eq_getElem?_getD, List.getElem?_replicate]
      simp [hi]
    obtain ⟨hlen1, hcnt1, hsafe1, hfc1⟩ := placeLoop_spec w h m ignX ignY s hw hh hx hy
      fuel 0 0 (List.replicate (h * w) default) ts1
      (List.length_replicate _ _)
      (by
        rw [List.countP_eq_zero]
        intro a ha
        rw [List.eq_of_mem_replicate ha]
        decide)
      (by omega)
      (by
        have hidx : w * ignY + ignX < (List.replicate (h * w) (default : Tile)).length := by
          rw [List.length_replicate]
          exact idx_lt w h ignX ignY hx hy
        rw [hrep _ hidx]
        decide)
      (by
        intro i hi
        rw [hrep i hi]
        exact ⟨rfl, rfl⟩)
      hpl
    have hidx1 : w * ignY + ignX < ts1.length := by
      rw [hlen1]
      exact idx_lt w h ignX ignY hx hy
    refine ⟨by rw [numberTiles_length, hlen1], ?_, ?_, ?_⟩
    · refine (countP_eq_pointwise _ (numberTiles w h ts1) ts1 (numberTiles_length w h ts1) ?_).trans hcnt1
      intro j hj
      rw [numberTiles_length] at hj
      rw [numberTiles_getD w h ts1 j hj]
      split
      · rfl
      · rename_i hne9
        have hle8 := mineCountAt_le w h ts1 (j % w) (j / w)
        show ((mineCountAt w h ts1 (j % w) (j / w) == 9) : Bool)
            = ((ts1.getD j default).value == 9)
        have h1 : ((mineCountAt w h ts1 (j % w) (j / w) == 9) : Bool) = false := by
          simp only [beq_eq_false_iff_ne]
          omega
        have h2 : (((ts1.getD j default).value == 9) : Bool) = false := by
          simp only [beq_eq_false_iff_ne]
          exact hne9
        rw [h1, h2]
    · rw [numberTiles_getD w h ts1 _ hidx1]
      split
      · exact hsafe1
      · have hle8 := mineCountAt_le w h ts1 ((w * ignY + ignX) % w) ((w * ignY + ignX) / w)
        show mineCountAt w h ts1 ((w * ignY + ignX) % w) ((w * ignY + ignX) / w) ≠ 9
        omega
    · intro i hi
      rw [numberTiles_length] at hi
      rw [numberTiles_getD w h ts1 i hi]
      split
      · exact hfc1 i hi
      · exact hfc1 i hi

/-! ### Values are never rewritten after generation -/

theorem latestTiles_winCheck (idx : Nat) (g : Game) :
    latestTiles (winCheck idx g) = latestTiles g := by
  rcases winCheck_cases idx g with h | ⟨h, _⟩ <;> rw [h] <;> rfl

theorem value_getD_set (ts : List Tile) (i : Nat) (f : Tile → Tile)
    (hf : ∀ u : Tile, (f u).value = u.value) (hi : i < ts.length) :
    ∀ j, ((setTile ts i f).getD j default).value = (ts.getD j default).value := by
  intro j
  by_cases hj : j = i
  · subst hj
    rw [getD_set_self _ _ _ hi]
    exact hf _
  · rw [getD_set_ne _ _ _ _ hj]

theorem latestTiles_congr (a b : Game) (h : a.history = b.history) :
    latestTiles a = latestTiles b := by
  unfold latestTiles
  rw [h]

theorem branch_values (gen : Nat → Nat → List Tile) (fuel : Nat) (g1 : Game)
    (x y : Nat) (flag : Bool) (g2 : Game) (hne1 : g1.history ≠ [])
    (hidx : g1.width * y + x < (latestTiles g1).length)
    (happ : applyBranch (fun g3 a b => ClickTile gen fuel g3 a b false) g1 x y flag
      = some g2) :
    (latestTiles g2).length = (latestTiles g1).length ∧
    ∀ j, j < (latestTiles g1).length →
      ((latestTiles g2).getD j default).value = ((latestTiles g1).getD j default).value := by
  cases flag with
  | false =>
    obtain ⟨l, t, hh, _⟩ := history_decomp g1 hne1
    obtain ⟨⟨_, _, _, _, _, _, htl⟩, _, _⟩ :=
      pres_branch gen fuel (presFold_all gen fuel) g1 x y g2 l t hh happ
    exact ⟨htl.1.symm, fun j hj => ((htl.2 j hj).1).symm⟩
  | true =>
    obtain ⟨l, t, hh, hlt⟩ := history_decomp g1 hne1
    rw [hlt] at hidx
    rcases applyBranch_true_cases _ g1 x y g2 happ with
      ⟨_, hg2⟩ | ⟨_, _, hg2⟩ | ⟨_, _, hg2⟩
    · subst hg2
      exact ⟨rfl, fun j _ => rfl⟩
    · have hml := modifyLastTiles_concat g1 l t
        (fun ts => setTile ts (g1.width * y + x) (fun u => { u with flagged := true })) hh
      have hlatm : latestTiles (modifyLastTiles g1 (fun ts => setTile ts (g1.width * y + x)
          (fun u => { u with flagged := true })))
          = setTile t.tiles (g1.width * y + x) (fun u => { u with flagged := true }) :=
        latestTiles_concat _ l _ hml
      have hhg : g2.history = (modifyLastTiles g1 (fun ts => setTile ts (g1.width * y + x)
          (fun u => { u with flagged := true }))).history := by
        subst hg2
        rfl
      have hlat2 : latestTiles g2
          = setTile t.tiles (g1.width * y + x) (fun u => { u with flagged := true }) :=
        (latestTiles_congr _ _ hhg).trans hlatm
      refine ⟨?_, ?_⟩
      · rw [hlat2, hlt, length_setTile]
      · intro j _
        rw [hlat2, hlt]
        exact value_getD_set t.tiles (g1.width * y + x)
          (fun u => { u with flagged := true }) (fun u => rfl) hidx j
    · have hml := modifyLastTiles_concat g1 l t
        (fun ts => setTile ts (g1.width * y + x) (fun u => { u with flagged := false })) hh
      have hlatm : latestTiles (modifyLastTiles g1 (fun ts => setTile ts (g1.width * y + x)
          (fun u => { u with flagged := false })))
          = setTile t.tiles (g1.width * y + x) (fun u => { u with flagged := false }) :=
        latestTiles_concat _ l _ hml
      have hhg : g2.history = (modifyLastTiles g1 (fun ts => setTile ts (g1.width * y + x)
          (fun u => { u with flagged := false }))).history := by
        subst hg2
        rfl
      have hlat2 : latestTiles g2
          = setTile t.tiles (g1.width * y + x) (fun u => { u with flagged := false }) :=
        (latestTiles_congr _ _ hhg).trans hlatm
      refine ⟨?_, ?_⟩
      · rw [hlat2, hlt, length_setTile]
      · intro j _
        rw [hlat2, hlt]
        exact value_getD_set t.tiles (g1.width * y + x)
          (fun u => { u with flagged := false }) (fun u => rfl) hidx j

theorem NewGame_spec (w h m : Nat) (g : Game) (hg : NewGame w h m = some g) :
    g = { width := w, height := h, mines := m, flags := 0, ended := false,
          won := false, history := [] } ∧
    w ≤ 250 ∧ h ≤ 250 ∧ (m : Int) ≤ (w : Int) * (h : Int) - 2 := by
  unfold NewGame at hg
  split at hg
  · exact absurd hg (by simp)
  · split at hg
    · exact absurd hg (by simp)
    · split at hg
      · exact absurd hg (by simp)
      · rename_i h1 h2 h3
        rw [Option.some_inj] at hg
        refine ⟨hg.symm, by omega, by omega, by omega⟩

/-- C1: on a freshly created board, the first `ClickTile` at in-bounds
`(x0, y0)` — whether a flag-toggle or a reveal — lays out the grid via
`generateTiles x0 y0`, which places exactly `mineCount` mines, none of them
at `(x0, y0)`: after the move the board holds exactly `m` mines and the
tile at `(x0, y0)` is not a mine. -/
theorem C1_safe_first_click (w h m x0 y0 : Nat) (s : Nat → Nat × Nat) (pf : Nat)
    (ts : List Tile) (gen : Nat → Nat → List Tile) (fuel : Nat) (flag : Bool)
    (g g' : Game) (e : Option MoveError)
    (hw : 0 < w) (hh : 0 < h) (hx : x0 < w) (hy : y0 < h)
    (hnew : NewGame w h m = some g)
    (hgen : generateTiles w h m x0 y0 s pf = some ts)
    (hgfun : gen x0 y0 = ts)
    (hclick : ClickTile gen fuel g x0 y0 flag = some (g', e)) :
    (latestTiles g').countP (fun t => t.value == 9) = m ∧
    ((latestTiles g').getD (w * y0 + x0) default).value ≠ 9 := by
  obtain ⟨hgrec, _, _, _⟩ := NewGame_spec w h m g hnew
  have hgw : g.width = w := by rw [hgrec]
  have hgh : g.height = h := by rw [hgrec]
  have hghist : g.history = [] := by rw [hgrec]
  have hgend : g.ended = false := by rw [hgrec]
  obtain ⟨hts1, hts2, hts3, _⟩ := generateTiles_spec w h m x0 y0 s pf ts hw hh hx hy hgen
  cases fuel with
  | zero => simp [ClickTile] at hclick
  | succ fl =>
    rcases ClickTile_succ_shape gen fl g x0 y0 flag (g', e) hclick with
      ⟨hxx, _⟩ | ⟨_, hyy, _⟩ | ⟨_, _, hrest⟩
    · omega
    · omega
    · have ht0 : (if g.history.isEmpty then gen x0 y0 else latestTiles g) = ts := by
        simp [hghist, hgfun]
      rw [ht0] at hrest
      rcases hrest with ⟨hend, _⟩ | ⟨_, g2, happ, hr⟩
      · rw [hgend] at hend
        cases hend
      · rw [Prod.mk.injEq] at hr
        obtain ⟨hg', _⟩ := hr
        subst hg'
        have hlat1 : latestTiles { g with history := g.history ++ [⟨x0, y0, flag, ts⟩] }
            = ts :=
          latestTiles_concat _ g.history ⟨x0, y0, flag, ts⟩ rfl
        have hne1 : ({ g with history := g.history ++ [⟨x0, y0, flag, ts⟩] } : Game).history
            ≠ [] := by simp
        have hidx0 : w * y0 + x0 < ts.length := by
          rw [hts1]
          exact idx_lt w h x0 y0 hx hy
        have hidx : ({ g with history := g.history ++ [⟨x0, y0, flag, ts⟩] } : Game).width * y0
            + x0 < (latestTiles { g with history := g.history ++ [⟨x0, y0, flag, ts⟩] }).length := by
          rw [hlat1]
          have : ({ g with history := g.history ++ [⟨x0, y0, flag, ts⟩] } : Game).width = w := hgw
          rw [this]
          exact hidx0
        obtain ⟨hblen, hbval⟩ := branch_values gen fl _ x0 y0 flag g2 hne1 hidx happ
        rw [hlat1] at hblen hbval
        have hlatw : latestTiles (winCheck g.history.length g2) = latestTiles g2 :=
          latestTiles_winCheck _ _
        constructor
        · rw [hlatw]
          refine (countP_eq_pointwise _ (latestTiles g2) ts (by rw [hblen]) ?_).trans hts2
          intro j hj
          rw [hblen] at hj
          show (((latestTiles g2).getD j default).value == 9)
            = ((ts.getD j default).value == 9)
          rw [hbval j hj]
        · rw [hlatw, hbval (w * y0 + x0) hidx0]
          exact hts3

theorem C1_witness :
    (latestTiles W1).countP (fun t => t.value == 9) = 0 ∧
    ((latestTiles W1).getD (2 * 0 + 0) default).value ≠ 9 :=
  C1_safe_first_click 2 1 0 0 0 s20 1 ts20 gen20 9 false W0 W1 none
    (by decide) (by decide) (by decide) (by decide) (by decide) (by decide)
    (by decide) (by decide)

/-- C4 counterexample: the claim admits every `mineCount < width*height`,
but `NewGame` requires `mineCount ≤ width*height - 2` (computed in `int`):
the valid-by-the-claim call `NewGame 1 1 0` (dimensions within 1..250 and
`0 < 1*1`) is rejected. -/
theorem C4_counterexample :
    1 ≤ (1 : Nat) ∧ (1 : Nat) ≤ 250 ∧ (0 : Nat) < 1 * 1 ∧ NewGame 1 1 0 = none := by
  decide

/-- C4 (amended): for dimensions between 1 and 250 and
`mineCount ≤ width*height - 2` (the `int` bound the code actually
enforces), `NewGame` succeeds and the returned game is in progress with no
flags, no revealed tiles, and no grid generated yet. -/
theorem C4_create_valid (w h m : Nat) (hw1 : 1 ≤ w) (hw : w ≤ 250)
    (hh1 : 1 ≤ h) (hh : h ≤ 250)
    (hm : (m : Int) ≤ (w : Int) * (h : Int) - 2) :
    ∃ g, NewGame w h m = some g ∧ g.ended = false ∧ g.won = false ∧ g.flags = 0 ∧
      g.history = [] ∧ latestTiles g = [] ∧ g.width = w ∧ g.height = h ∧ g.mines = m := by
  unfold NewGame
  rw [if_neg (by omega), if_neg (by omega), if_neg (by omega)]
  exact ⟨_, rfl, rfl, rfl, rfl, rfl, rfl, rfl, rfl, rfl⟩

theorem C4_witness :
    ∃ g, NewGame 2 1 0 = some g ∧ g.ended = false ∧ g.won = false ∧ g.flags = 0 ∧
      g.history = [] ∧ latestTiles g = [] ∧ g.width = 2 ∧ g.height = 1 ∧ g.mines = 0 :=
  C4_create_valid 2 1 0 (by decide) (by decide) (by decide) (by decide) (by decide)

/-- C9: `End` does not honor its `won` parameter — the claim says
`forceEnd(board, false)` leaves the board lost, but the body sets
`g.won = true` unconditionally, so an abandoned game reports a win
(`jsonWon` is `true` and `jsonFlags` reports the full mine count). -/
theorem C9_end_ignores_won (g : Game) :
    (End g false).won = true ∧ (End g false).ended = true ∧
    jsonWon (End g false) = true ∧ jsonFlags (End g false) = g.mines :=
  ⟨rfl, rfl, rfl, rfl⟩

/-- C10: a concrete reachable state where chording is unsafe.  On the 2×2
one-mine board, reveal `(0,0)` (adjacency 1), wrongly flag the safe tile
`(1,0)`, then chord `(0,0)`: the flagged-neighbor count equals the
adjacency count, so the chord fires and reveals the unflagged mine at
`(1,1)`, losing the game — the equality check gates on flag count only,
never on flag correctness. -/
theorem C10_chord_not_safe :
    generateTiles 2 2 1 0 0 s10 4 = some ts10 ∧
    NewGame 2 2 1 = some G0 ∧
    ClickTile gen10 9 G0 0 0 false = some (G1, none) ∧
    ClickTile gen10 9 G1 1 0 true = some (G2, none) ∧
    ((latestTiles G2).getD 0 default).clicked = true ∧
    ((latestTiles G2).getD 0 default).value = 1 ∧
    countFlags G2 0 0 = 1 ∧
    ((latestTiles G2).getD 1 default).flagged = true ∧
    ((latestTiles G2).getD 1 default).value ≠ 9 ∧
    G2.ended = false ∧
    ClickTile gen10 9 G2 0 0 false = some (G3, none) ∧
    G3.ended = true ∧ G3.won = false ∧
    ((latestTiles G3).getD 3 default).value = 9 ∧
    ((latestTiles G3).getD 3 default).clicked = true := by
  decide

/-- C3 counterexample: a rejected move does not leave the board
byte-for-byte unchanged.  On the lost game `G3`, a further move is
rejected with `notActive`, yet the returned state `G4` differs from `G3`:
the turn was appended to the history before the terminal guard ran. -/
theorem C3_counterexample :
    ClickTile gen10 9 G3 0 1 false = some (G4, some MoveError.notActive) ∧ G4 ≠ G3 := by
  decide

theorem C3_witness :
    ((MoveError.notActive = MoveError.oobX ∨ MoveError.notActive = MoveError.oobY) →
      G4 = G3) ∧
    (MoveError.notActive = MoveError.notActive →
      G4.flags = G3.flags ∧ G4.ended = G3.ended ∧ G4.won = G3.won ∧
      latestTiles G4 = (if G3.history.isEmpty then gen10 0 1 else latestTiles G3) ∧
      G4 = { G3 with history := G3.history ++
              [⟨0, 1, false, if G3.history.isEmpty then gen10 0 1 else latestTiles G3⟩] }) :=
  rejected_move_effect gen10 9 G3 0 1 false G4 MoveError.notActive (by decide)

/-- C5 counterexample: `renderView` on a board with no moves yet does not
follow the disclosure table.  A fresh in-progress board has every cell
unrevealed, so the table requires the hidden symbol `"?"`, but the `JSON`
grid loop iterates over the empty tile slice and leaves every entry the
empty string — the symbol of an empty opened tile. -/
theorem C5_counterexample :
    NewGame 2 1 0 = some W0 ∧ W0.ended = false ∧ W0.won = false ∧
    latestTiles W0 = [] ∧ (jsonGrid W0).getD 0 "?" = "" ∧ "" ≠ "?" := by
  decide

/-- C5 (amended): on a board whose grid has been generated, every cell of
the `JSON` grid follows the disclosure table exactly (with the rows checked
in order); on a board with no moves yet the whole grid renders as empty
strings instead of hidden markers. -/
theorem C5_render_table (g : Game) (i : Nat) :
    (g.history = [] → jsonGrid g = List.replicate (g.height * g.width) "") ∧
    (i < (latestTiles g).length → i < g.height * g.width →
      (((!g.won && g.ended) = true ∧ ((latestTiles g).getD i default).value = 9 ∧
          ((latestTiles g).getD i default).flagged = false →
        (jsonGrid g).getD i "" = "9") ∧
       ((!g.won && g.ended) = true ∧ ((latestTiles g).getD i default).value ≠ 9 ∧
          ((latestTiles g).getD i default).flagged = true →
        (jsonGrid g).getD i "" = "X") ∧
       ((((latestTiles g).getD i default).flagged = true ∨
           (g.won = true ∧ ((latestTiles g).getD i default).value = 9)) ∧
        ¬((!g.won && g.ended) = true ∧ ((latestTiles g).getD i default).value = 9 ∧
            ((latestTiles g).getD i default).flagged = false) ∧
        ¬((!g.won && g.ended) = true ∧ ((latestTiles g).getD i default).value ≠ 9 ∧
            ((latestTiles g).getD i default).flagged = true) →
        (jsonGrid g).getD i "" = "!") ∧
       (((latestTiles g).getD i default).clicked = false ∧
          ((latestTiles g).getD i default).flagged = false ∧
        ¬((!g.won && g.ended) = true ∧ ((latestTiles g).getD i default).value = 9) ∧
        ¬(g.won = true ∧ ((latestTiles g).getD i default).value = 9) →
        (jsonGrid g).getD i "" = "?") ∧
       (((latestTiles g).getD i default).clicked = true ∧
          ((latestTiles g).getD i default).flagged = false ∧
          ((latestTiles g).getD i default).value = 0 →
        (jsonGrid g).getD i "" = "") ∧
       (((latestTiles g).getD i default).clicked = true ∧
          ((latestTiles g).getD i default).flagged = false ∧
          1 ≤ ((latestTiles g).getD i default).value ∧
          ((latestTiles g).getD i default).value ≤ 8 →
        (jsonGrid g).getD i "" = toString ((latestTiles g).getD i default).value))) := by
  constructor
  · intro hhist
    have hlat : latestTiles g = [] := by
      unfold latestTiles
      rw [hhist]
      rfl
    unfold jsonGrid
    rw [hlat]
    have hmap : ∀ n : Nat, (List.range n).map
        (fun i => if i < ([] : List Tile).length then
          tileSymbol (!g.won && g.ended) g.won (([] : List Tile).getD i default) else "")
        = List.replicate n "" := by
      intro n
      induction n with
      | zero => rfl
      | succ k ih =>
        rw [List.range_succ, List.map_append, ih, List.replicate_succ']
        rfl
    exact hmap (g.height * g.width)
  · intro hi hiwh
    have hsym : (jsonGrid g).getD i ""
        = tileSymbol (!g.won && g.ended) g.won ((latestTiles g).getD i default) := by
      unfold jsonGrid
      rw [getD_range_map "" (g.height * g.width) _ i hiwh, if_pos hi]
    refine ⟨?_, ?_, ?_, ?_, ?_, ?_⟩
    · rintro ⟨hl, hv, hf⟩
      rw [hsym]
      unfold tileSymbol
      rw [hl, hv, hf]
      rfl
    · rintro ⟨hl, hv, hf⟩
      rw [hsym]
      unfold tileSymbol
      have hb : (((latestTiles g).getD i default).value == 9) = false := by
        simpa using hv
      rw [hl, hb, hf]
      rfl
    · rintro ⟨hor, hn1, hn2⟩
      rw [hsym]
      unfold tileSymbol
      have hc1 : ((!g.won && g.ended) && (((latestTiles g).getD i default).value == 9)
          && !((latestTiles g).getD i default).flagged) = false := by
        cases hL : (!g.won && g.ended) with
        | false => rfl
        | true =>
          by_cases hv : ((latestTiles g).getD i default).value = 9
          · cases hfl : ((latestTiles g).getD i default).flagged with
            | false => exact absurd ⟨hL, hv, hfl⟩ hn1
            | true => simp
          · have hb : (((latestTiles g).getD i default).value == 9) = false := by
              simpa using hv
            rw [hb]; simp
      have hc2 : ((!g.won && g.ended) && !(((latestTiles g).getD i default).value == 9)
          && ((latestTiles g).getD i default).flagged) = false := by
        cases hL : (!g.won && g.ended) with
        | false => rfl
        | true =>
          by_cases hv : ((latestTiles g).getD i default).value = 9
          · have hb : (((latestTiles g).getD i default).value == 9) = true := by
              simpa using hv
            rw [hb]; simp
          · cases hfl : ((latestTiles g).getD i default).flagged with
            | false => simp
            | true => exact absurd ⟨hL, hv, hfl⟩ hn2
      rw [hc1, hc2]
      have hc3 : (((latestTiles g).getD i default).flagged
          || (g.won && (((latestTiles g).getD i default).value == 9))) = true := by
        rcases hor with hf | ⟨hw, hv⟩
        · rw [hf]; rfl
        · rw [hw, hv]
          simp
      rw [hc3]
      rfl
    · rintro ⟨hcl, hf, hn1, hn2⟩
      rw [hsym]
      unfold tileSymbol
      have hc1 : ((!g.won && g.ended) && (((latestTiles g).getD i default).value == 9)
          && !((latestTiles g).getD i default).flagged) = false := by
        cases hL : (!g.won && g.ended) with
        | false => rfl
        | true =>
          by_cases hv : ((latestTiles g).getD i default).value = 9
          · exact absurd ⟨hL, hv⟩ hn1
          · have hb : (((latestTiles g).getD i default).value == 9) = false := by
              simpa using hv
            rw [hb]; simp
      have hc2 : ((!g.won && g.ended) && !(((latestTiles g).getD i default).value == 9)
          && ((latestTiles g).getD i default).flagged) = false := by
        rw [hf]
        simp
      have hc3 : (((latestTiles g).getD i default).flagged
          || (g.won && (((latestTiles g).getD i default).value == 9))) = false := by
        rw [hf]
        simp only [Bool.false_or, Bool.and_eq_false_iff]
        by_cases hw : g.won = true
        · right
          by_contra hv
          simp only [Bool.not_eq_false, beq_iff_eq] at hv
          exact hn2 ⟨hw, hv⟩
        · left
          simpa using hw
      rw [hc1, hc2, hc3, hcl]
      rfl
    · rintro ⟨hcl, hf, hv⟩
      rw [hsym]
      unfold tileSymbol
      have hb9 : (((latestTiles g).getD i default).value == 9) = false := by
        rw [hv]
        rfl
      have hb0 : (((latestTiles g).getD i default).value == 0) = true := by
        rw [hv]
        rfl
      rw [hf, hb9, hb0, hcl]
      simp
    · rintro ⟨hcl, hf, hv1, hv8⟩
      rw [hsym]
      unfold tileSymbol
      have hb9 : (((latestTiles g).getD i default).value == 9) = false := by
        simp only [beq_eq_false_iff_ne]
        omega
      have hb0 : (((latestTiles g).getD i default).value == 0) = false := by
        simp only [beq_eq_false_iff_ne]
        omega
      rw [hf, hb9, hb0, hcl]
      simp

theorem C5_witness : (jsonGrid G3).getD 1 "" = "X" :=
  ((C5_render_table G3 1).2 (by decide) (by decide)).2.1
    ⟨by decide, by decide, by decide⟩

/-! ### The win check and the turn slot it scans -/

theorem getD_concat_length (l : List Turn) (a d : Turn) : (l ++ [a]).getD l.length d = a := by
  induction l with
  | nil => rfl
  | cons x xs ih => simpa using ih

theorem winCheck_cases' (idx : Nat) (g : Game) :
    (winCheck idx g = End g true ∧ g.ended = false ∧
      (g.history.getD idx default).tiles.countP (fun t => t.clicked || (t.value == 9))
        = (g.history.getD idx default).tiles.length) ∨
    (winCheck idx g = g ∧ (g.ended = true ∨
      (g.history.getD idx default).tiles.countP (fun t => t.clicked || (t.value == 9))
        ≠ (g.history.getD idx default).tiles.length)) := by
  unfold winCheck
  split
  · rename_i hge
    exact Or.inr ⟨rfl, Or.inl hge⟩
  · rename_i hge
    split
    · rename_i hcnt
      exact Or.inl ⟨rfl, by simpa using hge, hcnt⟩
    · rename_i hcnt
      exact Or.inr ⟨rfl, Or.inr hcnt⟩

theorem getD_append_concat (l : List Turn) (t : Turn) (ext : List Turn) :
    ((l ++ [t]) ++ ext).getD l.length default = t := by
  rw [List.getD_append (l ++ [t]) ext default l.length (by simp)]
  exact getD_concat_length l t default

theorem modifyLast_slot (g1 : Game) (l : List Turn) (t : Turn) (f : List Tile → List Tile)
    (hh : g1.history = l ++ [t]) :
    ((modifyLastTiles g1 f).history.getD l.length default).tiles = f t.tiles := by
  rw [modifyLastTiles_concat g1 l t f hh, getD_concat_length]

theorem branch_slot (gen : Nat → Nat → List Tile) (fuel : Nat) (g1 : Game)
    (x y : Nat) (flag : Bool) (g2 : Game) (l : List Turn) (t : Turn)
    (hh : g1.history = l ++ [t])
    (happ : applyBranch (fun g3 a b => ClickTile gen fuel g3 a b false) g1 x y flag
      = some g2) :
    (g2.history.getD l.length default).tiles.length = t.tiles.length ∧
    (g1.won = false → g2.won = true → g2.ended = true) := by
  have hne1 : g1.history ≠ [] := by rw [hh]; simp
  cases flag with
  | false =>
    rcases applyBranch_false_cases _ _ x y g2 happ with
      ⟨_, ⟨_, hfold⟩ | ⟨_, hg2⟩⟩ | ⟨_, _, hcases⟩ | ⟨_, _, hg2⟩
    · -- chord: neighbors loop from g1
      obtain ⟨⟨_, _, _, _, _, hwim, _⟩, ext, hext⟩ :=
        presFold_all gen fuel _ _ _ g1 g2 hne1 hfold
      constructor
      · rw [hext, hh, getD_append_concat]
      · intro hw1
        exact hwim (fun hc => absurd hc (by simp [hw1]))
    · subst hg2
      rw [hh, getD_concat_length]
      exact ⟨rfl, fun hw1 hw2 => absurd hw2 (by simp [hw1])⟩
    · have hslot := modifyLast_slot g1 l t
        (fun ts => setTile ts (g1.width * y + x) (fun u => { u with clicked := true })) hh
      rcases hcases with ⟨_, hg2⟩ | ⟨_, _, hfold⟩ | ⟨_, _, hg2⟩
      · -- mine: game frozen
        have hh2 : g2.history = (modifyLastTiles g1 (fun ts => setTile ts (g1.width * y + x)
            (fun u => { u with clicked := true }))).history := by rw [hg2]
        constructor
        · rw [hh2, hslot]
          exact length_setTile _ _ _
        · intro _ _
          rw [hg2]
      · -- cascade from the clicked turn
        have hhistc := modifyLastTiles_concat g1 l t
          (fun ts => setTile ts (g1.width * y + x) (fun u => { u with clicked := true })) hh
        have hnec : (modifyLastTiles g1 (fun ts => setTile ts (g1.width * y + x)
            (fun u => { u with clicked := true }))).history ≠ [] := by
          rw [hhistc]; simp
        obtain ⟨⟨_, _, _, _, _, hwim, _⟩, ext, hext⟩ :=
          presFold_all gen fuel _ _ _ _ g2 hnec hfold
        constructor
        · rw [hext, hhistc, getD_append_concat]
          show (setTile t.tiles (g1.width * y + x)
            (fun u => { u with clicked := true })).length = t.tiles.length
          exact length_setTile _ _ _
        · intro hw1
          refine hwim (fun hc => absurd hc ?_)
          show ¬((modifyLastTiles g1 (fun ts => setTile ts (g1.width * y + x)
            (fun u => { u with clicked := true }))).won = true)
          have hwr : (modifyLastTiles g1 (fun ts => setTile ts (g1.width * y + x)
              (fun u => { u with clicked := true }))).won = g1.won := rfl
          rw [hwr]
          simp [hw1]
      · -- plain numbered reveal
        have hh2 : g2.history = (modifyLastTiles g1 (fun ts => setTile ts (g1.width * y + x)
            (fun u => { u with clicked := true }))).history := by rw [hg2]
        constructor
        · rw [hh2, hslot]
          exact length_setTile _ _ _
        · intro hw1 hw2
          rw [hg2] at hw2
          have hwr : (modifyLastTiles g1 (fun ts => setTile ts (g1.width * y + x)
              (fun u => { u with clicked := true }))).won = g1.won := rfl
          rw [hwr, hw1] at hw2
          cases hw2
    · subst hg2
      rw [hh, getD_concat_length]
      exact ⟨rfl, fun hw1 hw2 => absurd hw2 (by simp [hw1])⟩
  | true =>
    rcases applyBranch_true_cases _ g1 x y g2 happ with
      ⟨_, hg2⟩ | ⟨_, _, hg2⟩ | ⟨_, _, hg2⟩
    · subst hg2
      rw [hh, getD_concat_length]
      exact ⟨rfl, fun hw1 hw2 => absurd hw2 (by simp [hw1])⟩
    · have hslot := modifyLast_slot g1 l t
        (fun ts => setTile ts (g1.width * y + x) (fun u => { u with flagged := true })) hh
      have hh2 : g2.history = (modifyLastTiles g1 (fun ts => setTile ts (g1.width * y + x)
          (fun u => { u with flagged := true }))).history := by rw [hg2]
      constructor
      · rw [hh2, hslot]
        exact length_setTile _ _ _
      · intro hw1 hw2
        rw [hg2] at hw2
        have hwr : ({ modifyLastTiles g1 (fun ts => setTile ts (g1.width * y + x)
            (fun u => { u with flagged := true })) with
              flags := (g1.flags + 1) % 65536 } : Game).won = g1.won := rfl
        rw [hwr, hw1] at hw2
        cases hw2
    · have hslot := modifyLast_slot g1 l t
        (fun ts => setTile ts (g1.width * y + x) (fun u => { u with flagged := false })) hh
      have hh2 : g2.history = (modifyLastTiles g1 (fun ts => setTile ts (g1.width * y + x)
          (fun u => { u with flagged := false }))).history := by rw [hg2]
      constructor
      · rw [hh2, hslot]
        exact length_setTile _ _ _
      · intro hw1 hw2
        rw [hg2] at hw2
        have hwr : ({ modifyLastTiles g1 (fun ts => setTile ts (g1.width * y + x)
            (fun u => { u with flagged := false })) with
              flags := (g1.flags + 65535) % 65536 } : Game).won = g1.won := rfl
        rw [hwr, hw1] at hw2
        cases hw2

/-- C2: a successful move decomposes as the branch's mutation `g2`
followed by the win scan.  If the mutation leaves the game not yet ended
and the scanned turn array's revealed-or-mine count equals
`height*width`, the outcome transitions to won and the end is stamped
(`g'.won = true` and `g'.ended = true`); conversely a move that leaves the
game not ended cannot have scanned a full count; and once the game is won
the rendered `flags` field equals the total mine count regardless of the
flags actually placed. -/
theorem C2_win_detection (gen : Nat → Nat → List Tile) (fuel : Nat) (g : Game)
    (x y : Nat) (flag : Bool) (g' : Game)
    (hwon : g.won = false)
    (hlen : (if g.history.isEmpty then gen x y else latestTiles g).length
      = g.height * g.width)
    (h : ClickTile gen fuel g x y flag = some (g', none)) :
    (∃ g2, applyBranch (fun g3 a b => ClickTile gen (fuel - 1) g3 a b false)
        { g with history := g.history ++
            [⟨x, y, flag, if g.history.isEmpty then gen x y else latestTiles g⟩] }
        x y flag = some g2 ∧
      g' = winCheck g.history.length g2 ∧
      (g2.ended = false →
        (g2.history.getD g.history.length default).tiles.countP
            (fun t => t.clicked || (t.value == 9)) = g.height * g.width →
        g'.won = true ∧ g'.ended = true)) ∧
    (g'.ended = false →
      ((g'.history.getD g.history.length default).tiles.countP
        (fun t => t.clicked || (t.value == 9))) ≠ g.height * g.width) ∧
    (g'.won = true → g'.ended = true ∧ jsonFlags g' = g'.mines) := by
  cases fuel with
  | zero => simp [ClickTile] at h
  | succ fl =>
    rcases ClickTile_succ_shape gen fl g x y flag (g', none) h with
      ⟨_, hr⟩ | ⟨_, _, hr⟩ | ⟨_, _, hrest⟩
    · rw [Prod.mk.injEq] at hr
      exact absurd hr.2 (by simp)
    · rw [Prod.mk.injEq] at hr
      exact absurd hr.2 (by simp)
    · rcases hrest with ⟨_, hr⟩ | ⟨hend, g2, happ, hr⟩
      · rw [Prod.mk.injEq] at hr
        exact absurd hr.2 (by simp)
      · rw [Prod.mk.injEq] at hr
        obtain ⟨hg', _⟩ := hr
        obtain ⟨hslen, hwimp⟩ := branch_slot gen fl _ x y flag g2 g.history
          ⟨x, y, flag, if g.history.isEmpty then gen x y else latestTiles g⟩ rfl happ
        have hsl : (g2.history.getD g.history.length default).tiles.length
            = g.height * g.width := by
          rw [hslen]
          exact hlen
        have hwimp' := hwimp hwon
        have hwch : (winCheck g.history.length g2).history = g2.history :=
          (pres_winCheck _ _).2
        refine ⟨⟨g2, happ, hg', ?_⟩, ?_, ?_⟩
        · intro hge2 hcnt
          rcases winCheck_cases' g.history.length g2 with ⟨hfired, _, _⟩ | ⟨_, hcond⟩
          · rw [hg', hfired]
            exact ⟨rfl, rfl⟩
          · exfalso
            rcases hcond with hge | hcnt'
            · rw [hge2] at hge
              cases hge
            · exact hcnt' (by rw [hcnt, hsl])
        · intro hne'
          rw [hg'] at hne' ⊢
          rw [hwch]
          rcases winCheck_cases' g.history.length g2 with ⟨hfired, _, _⟩ | ⟨hsame, hcond⟩
          · rw [hfired] at hne'
            simp [End] at hne'
          · rcases hcond with hge | hcnt
            · rw [hsame, hge] at hne'
              cases hne'
            · rw [hsl] at hcnt
              exact hcnt
        · intro hw'
          rw [hg'] at hw' ⊢
          rcases winCheck_cases' g.history.length g2 with ⟨hfired, _, _⟩ | ⟨hsame, _⟩
          · rw [hfired] at hw' ⊢
            exact ⟨rfl, rfl⟩
          · rw [hsame] at hw' ⊢
            refine ⟨hwimp' hw', ?_⟩
            unfold jsonFlags
            rw [hwimp' hw', hw']
            rfl

/-- C2 witness: revealing `(0,1)`, the last non-mine of the 2×2 one-mine
board, transitions the outcome to won, stamps the end, and makes the
rendered flag count equal the mine count. -/
theorem C2_witness :
    V3.won = true ∧ V3.ended = true ∧ jsonFlags V3 = V3.mines := by
  obtain ⟨⟨g2, happ, _, himp⟩, _, hpost⟩ :=
    C2_win_detection gen10 9 V2 0 1 false V3 (by decide) (by decide) (by decide)
  have hg2 : (applyBranch (fun g3 a b => ClickTile gen10 (9 - 1) g3 a b false)
      { V2 with history := V2.history ++
          [⟨0, 1, false, if V2.history.isEmpty then gen10 0 1 else latestTiles V2⟩] }
      0 1 false).getD default = g2 := by
    rw [happ]
    rfl
  have hw := himp (by rw [← hg2]; decide) (by rw [← hg2]; decide)
  exact ⟨hw.1, hw.2, (hpost hw.1).2⟩

/-! ### What a recursive reveal does to its target cell -/

theorem click_marks (gen : Nat → Nat → List Tile) (fuel : Nat) (g : Game) (a b : Nat)
    (r : Game × Option MoveError)
    (hne : g.history ≠ []) (ha : a < g.width) (hb : b < g.height)
    (hidx : g.width * b + a < (latestTiles g).length)
    (hfl : ((latestTiles g).getD (g.width * b + a) default).flagged = false)
    (hc : ClickTile gen (fuel + 1) g a b false = some r) :
    ((latestTiles r.1).getD (g.width * b + a) default).clicked = true ∨ r.1.ended = true := by
  rcases ClickTile_succ_shape gen fuel g a b false r hc with
    ⟨hax, _⟩ | ⟨_, hby, _⟩ | ⟨_, _, hrest⟩
  · omega
  · omega
  · have ht0 : (if g.history.isEmpty then gen a b else latestTiles g) = latestTiles g := by
      simp [hne]
    rw [ht0] at hrest
    rcases hrest with ⟨hend, hr⟩ | ⟨hend, g2, happ, hr⟩
    · right
      rw [hr]
      exact hend
    · have hwrec : ({ g with history := g.history ++ [⟨a, b, false, latestTiles g⟩] } : Game).width
          = g.width := rfl
      have hlat1 : latestTiles { g with history := g.history ++ [⟨a, b, false, latestTiles g⟩] }
          = latestTiles g :=
        latestTiles_concat _ g.history ⟨a, b, false, latestTiles g⟩ rfl
      have hne1 : ({ g with history := g.history ++ [⟨a, b, false, latestTiles g⟩] } : Game).history
          ≠ [] := by simp
      have hr1 : r.1 = winCheck g.history.length g2 := by rw [hr]
      have hlatr : latestTiles r.1 = latestTiles g2 := by
        rw [hr1]
        exact latestTiles_winCheck _ _
      rcases applyBranch_false_cases _ _ a b g2 happ with
        ⟨hck, ⟨_, hfold⟩ | ⟨_, hg2⟩⟩ | ⟨hck, hfg2, hcases⟩ | ⟨_, hfg, _⟩
      · -- stale chord: the cell is already revealed in the live grid
        rw [hwrec, hlat1] at hck
        left
        obtain ⟨⟨_, _, _, _, _, _, htl⟩, _, _⟩ := presFold_all gen fuel _ _ _ _ g2 hne1 hfold
        rw [hlatr]
        have hidx1 : g.width * b + a
            < (latestTiles { g with history := g.history ++ [⟨a, b, false, latestTiles g⟩] }).length := by
          rw [hlat1]
          exact hidx
        have hmono := (htl.2 (g.width * b + a) hidx1).2.2
        rw [hlat1] at hmono
        exact hmono hck
      · -- chord mismatch: already-revealed cell, state unchanged
        rw [hwrec, hlat1] at hck
        left
        rw [hlatr, hg2, hlat1]
        exact hck
      · -- fresh reveal: the click itself marks the cell
        rw [hwrec, hlat1] at hck hfg2
        rw [hwrec] at hcases
        obtain ⟨_, hhistc, hlatc⟩ := pres_modifyLast_clicked
          { g with history := g.history ++ [⟨a, b, false, latestTiles g⟩] }
          g.history ⟨a, b, false, latestTiles g⟩ (g.width * b + a) rfl
        have hlatc' : latestTiles (modifyLastTiles
            { g with history := g.history ++ [⟨a, b, false, latestTiles g⟩] }
            (fun ts => setTile ts (g.width * b + a) (fun u => { u with clicked := true })))
            = setTile (latestTiles g) (g.width * b + a)
                (fun u => { u with clicked := true }) := hlatc
        have hclicked : ((latestTiles (modifyLastTiles
            { g with history := g.history ++ [⟨a, b, false, latestTiles g⟩] }
            (fun ts => setTile ts (g.width * b + a) (fun u => { u with clicked := true })))).getD
            (g.width * b + a) default).clicked = true := by
          rw [hlatc', getD_set_self (latestTiles g) _ _ hidx]
        have hnec : (modifyLastTiles
            { g with history := g.history ++ [⟨a, b, false, latestTiles g⟩] }
            (fun ts => setTile ts (g.width * b + a)
              (fun u => { u with clicked := true }))).history ≠ [] := by
          rw [hhistc]
          simp
        rcases hcases with ⟨_, hg2⟩ | ⟨_, _, hfold⟩ | ⟨_, _, hg2⟩
        · -- mine: the game is over
          right
          rw [hr1]
          have hge : g2.ended = true := by rw [hg2]
          rcases winCheck_cases g.history.length g2 with hwc | ⟨_, hwe⟩
          · rw [hwc]
            exact hge
          · rw [hwe] at hge
            cases hge
        · -- cascade: the click survives the neighbor loop
          left
          obtain ⟨⟨_, _, _, _, _, _, htl⟩, _, _⟩ :=
            presFold_all gen fuel _ _ _ _ g2 hnec hfold
          rw [hlatr]
          have hidxc : g.width * b + a < (latestTiles (modifyLastTiles
              { g with history := g.history ++ [⟨a, b, false, latestTiles g⟩] }
              (fun ts => setTile ts (g.width * b + a)
                (fun u => { u with clicked := true })))).length := by
            rw [hlatc', length_setTile]
            exact hidx
          exact (htl.2 (g.width * b + a) hidxc).2.2 hclicked
        · -- plain numbered reveal
          left
          rw [hlatr, hg2]
          exact hclicked
      · -- flagged target cannot occur: the latest tile is unflagged
        exfalso
        rw [hwrec, hlat1, hfl] at hfg
        cases hfg

theorem fold_reveals (gen : Nat → Nat → List Tile) (fuel : Nat) :
    ∀ (L : List (Nat × Nat)) (g : Game) (snap : List Tile) (g2 : Game),
    g.history ≠ [] →
    (latestTiles g).length = g.width * g.height →
    TilesLe snap (latestTiles g) →
    (∀ p ∈ L, p.1 < g.width ∧ p.2 < g.height) →
    foldNeighbors g.width (fun g3 a b => ClickTile gen fuel g3 a b false) snap g L
      = some g2 →
    ∀ p ∈ L, (snap.getD (g.width * p.2 + p.1) default).clicked = false →
      (snap.getD (g.width * p.2 + p.1) default).flagged = false →
      (((latestTiles g2).getD (g.width * p.2 + p.1) default).clicked = true
        ∨ g2.ended = true) := by
  intro L
  induction L with
  | nil =>
    intro g snap g2 _ _ _ _ _ p hp
    simp at hp
  | cons q rest ih =>
    intro g snap g2 hne hlen hle hbnd hfold p hp hpc hpf
    simp only [foldNeighbors] at hfold
    by_cases hguard : (snap.getD (g.width * q.2 + q.1) default).clicked = false ∧
        (snap.getD (g.width * q.2 + q.1) default).flagged = false
    · rw [if_pos hguard] at hfold
      cases fuel with
      | zero => simp [ClickTile] at hfold
      | succ fl =>
        cases hc : ClickTile gen (fl + 1) g q.1 q.2 false with
        | none =>
          rw [hc] at hfold
          cases hfold
        | some rr =>
          rw [hc] at hfold
          obtain ⟨⟨hw, hh, _, _, hem, _, htl⟩, ext, hext⟩ :=
            presStep_all gen (fl + 1) g q.1 q.2 rr.1 rr.2 hne (by rw [hc])
          have hne' : rr.1.history ≠ [] := by
            rw [hext]
            intro habs
            exact hne (List.append_eq_nil.mp habs).1
          have hlen' : (latestTiles rr.1).length = rr.1.width * rr.1.height := by
            rw [← htl.1, hlen, hw, hh]
          have hle' : TilesLe snap (latestTiles rr.1) := tilesLe_trans hle htl
          have hbnd' : ∀ p' ∈ rest, p'.1 < rr.1.width ∧ p'.2 < rr.1.height := by
            intro p' hp'
            rw [hw, hh]
            exact hbnd p' (List.mem_cons_of_mem q hp')
          have hfold' : foldNeighbors rr.1.width
              (fun g3 a b => ClickTile gen (fl + 1) g3 a b false) snap rr.1 rest
              = some g2 := by
            rw [hw]
            exact hfold
          rcases List.mem_cons.mp hp with hpq | hprest
          · -- head element: the child marks it; monotone through the rest
            have hq := hbnd q (by simp)
            have hidx : g.width * q.2 + q.1 < (latestTiles g).length := by
              rw [hlen, Nat.mul_comm g.width g.height]
              exact idx_lt g.width g.height q.1 q.2 hq.1 hq.2
            have hsnapidx : g.width * q.2 + q.1 < snap.length := by
              rw [hle.1]
              exact hidx
            have hlf : ((latestTiles g).getD (g.width * q.2 + q.1) default).flagged
                = false := by
              rw [← (hle.2 _ hsnapidx).2.1]
              exact hguard.2
            have hmark := click_marks gen fl g q.1 q.2 rr hne hq.1 hq.2 hidx hlf hc
            obtain ⟨⟨_, _, _, _, hem2, _, htl2⟩, _, _⟩ :=
              presFold_all gen (fl + 1) _ _ _ rr.1 g2 hne' hfold'
            have hgoal : ((latestTiles g2).getD (g.width * q.2 + q.1) default).clicked = true
                ∨ g2.ended = true := by
              rcases hmark with hckd | hendd
              · left
                have hidx2 : g.width * q.2 + q.1 < (latestTiles rr.1).length := by
                  rw [← htl.1]
                  exact hidx
                exact (htl2.2 _ hidx2).2.2 hckd
              · right
                exact hem2 hendd
            rw [hpq]
            exact hgoal
          · -- tail element: induction on the remaining loop
            have hres := ih rr.1 snap g2 hne' hlen' hle' hbnd' hfold' p hprest
              (by rw [hw]; exact hpc) (by rw [hw]; exact hpf)
            rw [hw] at hres
            exact hres
    · rw [if_neg hguard] at hfold
      rcases List.mem_cons.mp hp with hpq | hprest
      · rw [hpq] at hpc hpf
        exact absurd ⟨hpc, hpf⟩ hguard
      · exact ih g snap g2 hne hlen hle
          (fun p' hp' => hbnd p' (List.mem_cons_of_mem q hp')) hfold p hprest hpc hpf

/-- C6 counterexample: on the `H2` board the chord equality holds at
`(0,0)` (one flag, value 1), yet after the chord the unflagged, unrevealed
neighbor `(1,1)` (index 3) is still not revealed — the chorded reveal of
the mine at `(0,1)` ended the game first, so the claim's "reveals every
currently unrevealed, unflagged neighbor" fails as stated. -/
theorem C6_counterexample :
    countFlags H2 0 0 = ((latestTiles H2).getD 0 default).value ∧
    ((latestTiles H2).getD 0 default).clicked = true ∧
    H2.ended = false ∧
    ((latestTiles H2).getD 3 default).clicked = false ∧
    ((latestTiles H2).getD 3 default).flagged = false ∧
    ClickTile gen30 9 H2 0 0 false = some (H3, none) ∧
    ((latestTiles H3).getD 3 default).clicked = false := by
  decide

/-- C6 (amended): a reveal-mode move on an already-revealed tile of an
active board is gated by exact equality between the flagged-neighbor count
and the tile's value.  The move reports no error either way.  On a
mismatch the latest grid is unchanged (a no-op, not an error).  On
equality, every neighbor the chord snapshot shows as unrevealed and
unflagged is revealed by the end of the move — unless the game has ended,
since a chorded reveal hitting a mine terminates the game and the
inactive-game guard rejects the remaining reveals. -/
theorem C6_chord_exact (gen : Nat → Nat → List Tile) (fuel : Nat) (g : Game) (x y : Nat)
    (r : Game × Option MoveError)
    (hne : g.history ≠ [])
    (hlen : (latestTiles g).length = g.width * g.height)
    (hx : x < g.width) (hy : y < g.height)
    (hend : g.ended = false)
    (ht : ((latestTiles g).getD (g.width * y + x) default).clicked = true)
    (hc : ClickTile gen (fuel + 1) g x y false = some r) :
    r.2 = none ∧
    (countFlags g x y ≠ ((latestTiles g).getD (g.width * y + x) default).value →
      latestTiles r.1 = latestTiles g) ∧
    (countFlags g x y = ((latestTiles g).getD (g.width * y + x) default).value →
      ∀ p ∈ neighborsOf g.width g.height x y,
        ((latestTiles g).getD (g.width * p.2 + p.1) default).clicked = false →
        ((latestTiles g).getD (g.width * p.2 + p.1) default).flagged = false →
        (((latestTiles r.1).getD (g.width * p.2 + p.1) default).clicked = true
          ∨ r.1.ended = true)) := by
  rcases ClickTile_succ_shape gen fuel g x y false r hc with
    ⟨hax, _⟩ | ⟨_, hby, _⟩ | ⟨_, _, hrest⟩
  · omega
  · omega
  · have ht0 : (if g.history.isEmpty then gen x y else latestTiles g) = latestTiles g := by
      simp [hne]
    rw [ht0] at hrest
    rcases hrest with ⟨hge, _⟩ | ⟨_, g2, happ, hr⟩
    · rw [hend] at hge
      cases hge
    · have hwrec : ({ g with history := g.history ++ [⟨x, y, false, latestTiles g⟩] } : Game).width
          = g.width := rfl
      have hlat1 : latestTiles { g with history := g.history ++ [⟨x, y, false, latestTiles g⟩] }
          = latestTiles g :=
        latestTiles_concat _ g.history ⟨x, y, false, latestTiles g⟩ rfl
      have hne1 : ({ g with history := g.history ++ [⟨x, y, false, latestTiles g⟩] } : Game).history
          ≠ [] := by simp
      have hr1 : r.1 = winCheck g.history.length g2 := by rw [hr]
      have hr2 : r.2 = none := by rw [hr]
      have hlatr : latestTiles r.1 = latestTiles g2 := by
        rw [hr1]
        exact latestTiles_winCheck _ _
      have hcf : countFlags { g with history := g.history ++ [⟨x, y, false, latestTiles g⟩] } x y
          = countFlags g x y := by
        unfold countFlags
        rw [hlat1]
      rcases applyBranch_false_cases _ _ x y g2 happ with
        ⟨hck, ⟨hfeq, hfold⟩ | ⟨hfne, hg2⟩⟩ | ⟨hck, _, _⟩ | ⟨hck, _, _⟩
      · -- chord fires: flag count matches the value
        rw [hcf, hwrec, hlat1] at hfeq
        refine ⟨hr2, fun hne2 => absurd hfeq hne2, fun _ p hp hpc hpf => ?_⟩
        unfold clickNeighbors at hfold
        have hlen1 : (latestTiles
            { g with history := g.history ++ [⟨x, y, false, latestTiles g⟩] }).length
            = ({ g with history := g.history ++ [⟨x, y, false, latestTiles g⟩] } : Game).width
              * ({ g with history := g.history ++ [⟨x, y, false, latestTiles g⟩] } : Game).height := by
          rw [hlat1]
          exact hlen
        have hbnds : ∀ p' ∈ neighborsOf
            ({ g with history := g.history ++ [⟨x, y, false, latestTiles g⟩] } : Game).width
            ({ g with history := g.history ++ [⟨x, y, false, latestTiles g⟩] } : Game).height x y,
            p'.1 < ({ g with history := g.history ++ [⟨x, y, false, latestTiles g⟩] } : Game).width
            ∧ p'.2
              < ({ g with history := g.history ++ [⟨x, y, false, latestTiles g⟩] } : Game).height :=
          fun p' hp' => mem_neighborsOf _ _ x y p' hp'
        have hrev := fold_reveals gen fuel _ _ _ g2 hne1 hlen1 (tilesLe_refl _) hbnds hfold
        have hres := hrev p hp (by rw [hlat1]; exact hpc) (by rw [hlat1]; exact hpf)
        rcases hres with hckd | hendd
        · left
          rw [hlatr]
          exact hckd
        · right
          rw [hr1]
          exact (pres_winCheck g.history.length g2).1.2.2.2.2.1 hendd
      · -- chord mismatch: no error, grid untouched
        rw [hcf, hwrec, hlat1] at hfne
        refine ⟨hr2, fun _ => ?_, fun heq => absurd heq hfne⟩
        rw [hlatr, hg2, hlat1]
      · -- target unrevealed: contradicts the chord hypothesis
        rw [hwrec, hlat1] at hck
        rw [ht] at hck
        cases hck
      · rw [hwrec, hlat1] at hck
        rw [ht] at hck
        cases hck

/-- C6 witness: chording `(0,0)` on the `H2` board (flag count 1 equals
the tile value) reveals the snapshot-unrevealed, unflagged neighbor
`(0,1)` or ends the game. -/
theorem C6_witness :
    countFlags H2 0 0 = ((latestTiles H2).getD (H2.width * 0 + 0) default).value ∧
    (((latestTiles ((ClickTile gen30 9 H2 0 0 false).getD (H2, none)).1).getD
        (H2.width * 1 + 0) default).clicked = true
      ∨ ((ClickTile gen30 9 H2 0 0 false).getD (H2, none)).1.ended = true) :=
  ⟨by decide,
   (C6_chord_exact gen30 8 H2 0 0 ((ClickTile gen30 9 H2 0 0 false).getD (H2, none))
      (by decide) (by decide) (by decide) (by decide) (by decide) (by decide)
      (by decide)).2.2 (by decide) (0, 1) (by decide) (by decide) (by decide)⟩

/-! ### The flag counter against the flagged tiles of the latest grid -/

theorem countP_le_len (p : Tile → Bool) : ∀ l : List Tile, l.countP p ≤ l.length := by
  intro l
  induction l with
  | nil => simp
  | cons a l ih =>
    simp only [List.countP_cons, List.length_cons]
    by_cases hp : p a = true
    · rw [hp]
      simp
      omega
    · simp only [Bool.not_eq_true] at hp
      rw [hp]
      simp
      omega

theorem countP_zero_of_getD (p : Tile → Bool) :
    ∀ l : List Tile, (∀ i, i < l.length → p (l.getD i default) = false) →
    l.countP p = 0 := by
  intro l
  induction l with
  | nil => intro _; rfl
  | cons a l ih =>
    intro h
    have h0 := h 0 (by simp)
    simp only [List.getD_cons_zero] at h0
    have hrest : ∀ i, i < l.length → p (l.getD i default) = false := by
      intro i hi
      have := h (i + 1) (by simpa using Nat.succ_lt_succ hi)
      simpa using this
    simp [List.countP_cons, h0, ih hrest]

theorem latestTiles_nil (g : Game) (h : g.history = []) : latestTiles g = [] := by
  unfold latestTiles
  rw [h]
  rfl

/-- What one `applyBranch` dispatch does to the flag counter and the
flagged-tile count of the latest grid: they stay equal, the grid length is
unchanged, and the dimensions are untouched. -/
theorem branch_flags (gen : Nat → Nat → List Tile) (fuel : Nat) (g1 : Game)
    (x y : Nat) (flag : Bool) (g2 : Game)
    (hne1 : g1.history ≠ [])
    (hidx : g1.width * y + x < (latestTiles g1).length)
    (hflags : g1.flags = (latestTiles g1).countP (fun t => t.flagged))
    (hbound : (latestTiles g1).length ≤ 62500)
    (happ : applyBranch (fun g3 a b => ClickTile gen fuel g3 a b false) g1 x y flag
      = some g2) :
    g2.flags = (latestTiles g2).countP (fun t => t.flagged) ∧
    (latestTiles g2).length = (latestTiles g1).length ∧
    g2.width = g1.width ∧ g2.height = g1.height := by
  cases flag with
  | false =>
    obtain ⟨l, t, hh, _⟩ := history_decomp g1 hne1
    obtain ⟨⟨hbw, hbh, _, hfl, _, _, htl⟩, _⟩ :=
      pres_branch gen fuel (presFold_all gen fuel) g1 x y g2 l t hh happ
    refine ⟨?_, htl.1.symm, hbw, hbh⟩
    rw [hfl, hflags]
    exact countP_eq_pointwise _ _ _ htl.1 (fun j hj => (htl.2 j hj).2.1)
  | true =>
    rcases applyBranch_true_cases _ g1 x y g2 happ with
      ⟨_, hg2⟩ | ⟨_, hfl, hg2⟩ | ⟨_, hfl, hg2⟩
    · subst hg2
      exact ⟨hflags, rfl, rfl, rfl⟩
    · -- turning a flag on: the counter and the count both go up by one
      subst hg2
      obtain ⟨l, t, hh, hlt⟩ := history_decomp g1 hne1
      have hh2 := modifyLastTiles_concat g1 l t
        (fun ts => setTile ts (g1.width * y + x) (fun u => { u with flagged := true })) hh
      have hcongr : latestTiles ({ modifyLastTiles g1 (fun ts => setTile ts (g1.width * y + x)
          (fun u => { u with flagged := true })) with flags := (g1.flags + 1) % 65536 } : Game)
          = latestTiles (modifyLastTiles g1 (fun ts => setTile ts (g1.width * y + x)
          (fun u => { u with flagged := true }))) :=
        latestTiles_congr _ _ rfl
      have hlat2 : latestTiles (modifyLastTiles g1 (fun ts => setTile ts (g1.width * y + x)
          (fun u => { u with flagged := true })))
          = setTile t.tiles (g1.width * y + x) (fun u => { u with flagged := true }) :=
        latestTiles_concat _ l _ hh2
      have hlatg2 := hcongr.trans hlat2
      rw [hlt] at hidx hflags hfl hbound
      have hcnt := countP_set_true (fun t => t.flagged) t.tiles (g1.width * y + x)
        (fun u => { u with flagged := true }) hidx hfl rfl
      have hle := countP_le_len (fun t => t.flagged) t.tiles
      have hmod : (g1.flags + 1) % 65536 = g1.flags + 1 := by omega
      refine ⟨?_, ?_, rfl, rfl⟩
      · rw [hlatg2, hcnt, ← hflags]
        exact hmod
      · rw [hlatg2, hlt, length_setTile]
    · -- turning a flag off: the counter and the count both go down by one
      subst hg2
      obtain ⟨l, t, hh, hlt⟩ := history_decomp g1 hne1
      have hh2 := modifyLastTiles_concat g1 l t
        (fun ts => setTile ts (g1.width * y + x) (fun u => { u with flagged := false })) hh
      have hcongr : latestTiles ({ modifyLastTiles g1 (fun ts => setTile ts (g1.width * y + x)
          (fun u => { u with flagged := false })) with
          flags := (g1.flags + 65535) % 65536 } : Game)
          = latestTiles (modifyLastTiles g1 (fun ts => setTile ts (g1.width * y + x)
          (fun u => { u with flagged := false }))) :=
        latestTiles_congr _ _ rfl
      have hlat2 : latestTiles (modifyLastTiles g1 (fun ts => setTile ts (g1.width * y + x)
          (fun u => { u with flagged := false })))
          = setTile t.tiles (g1.width * y + x) (fun u => { u with flagged := false }) :=
        latestTiles_concat _ l _ hh2
      have hlatg2 := hcongr.trans hlat2
      rw [hlt] at hidx hflags hfl hbound
      have hcnt := countP_set_false (fun t => t.flagged) t.tiles (g1.width * y + x)
        (fun u => { u with flagged := false }) hidx hfl rfl
      have hpos : 0 < t.tiles.countP (fun t => t.flagged) :=
        countP_pos _ t.tiles (g1.width * y + x) hidx hfl
      have hle := countP_le_len (fun t => t.flagged) t.tiles
      refine ⟨?_, ?_, rfl, rfl⟩
      · rw [hlatg2]
        have hgoal : (g1.flags + 65535) % 65536
            = (setTile t.tiles (g1.width * y + x)
                (fun u => { u with flagged := false })).countP (fun t => t.flagged) := by
          rw [hflags]
          omega
        exact hgoal
      · rw [hlatg2, hlt, length_setTile]

/-- Wrapping a branch result in the win-condition scan keeps `FlagInv`. -/
theorem flagInv_wrap (g : Game) (idx : Nat) (g2 g' : Game)
    (hg' : g' = winCheck idx g2)
    (hW : g.width ≤ 250) (hH : g.height ≤ 250)
    (hbf : g2.flags = (latestTiles g2).countP (fun t => t.flagged))
    (hbw : g2.width = g.width) (hbh : g2.height = g.height)
    (hblen : (latestTiles g2).length = g.height * g.width)
    (hwpos : 0 < g.width) (hhpos : 0 < g.height) :
    FlagInv g' := by
  obtain ⟨hpwc, hwch⟩ := pres_winCheck idx g2
  have hw' : g'.width = g.width := by rw [hg', hpwc.1, hbw]
  have hh' : g'.height = g.height := by rw [hg', hpwc.2.1, hbh]
  have hlat' : latestTiles g' = latestTiles g2 := by
    rw [hg']
    exact latestTiles_winCheck _ _
  have hflags' : g'.flags = g2.flags := by
    rw [hg']
    exact hpwc.2.2.2.1
  have hlen' : (latestTiles g').length = g.height * g.width := by
    rw [hlat']
    exact hblen
  have hne' : g'.history ≠ [] := by
    intro habs
    have h0 : latestTiles g' = [] := latestTiles_nil g' habs
    rw [h0] at hlen'
    have hpos : 0 < g.height * g.width := Nat.mul_pos hhpos hwpos
    exact absurd hlen'.symm (Nat.ne_of_gt hpos)
  exact ⟨by rw [hw']; exact hW, by rw [hh']; exact hH,
    by rw [hflags', hlat']; exact hbf,
    fun habs => absurd habs hne',
    fun _ => by rw [hw', hh']; exact hlen'⟩

/-- One `ClickTile` call of any kind preserves `FlagInv`, provided a
first-move generator lays out an all-unflagged grid of the right size. -/
theorem flagInv_step (gen : Nat → Nat → List Tile) (fuel : Nat) (g : Game) (x y : Nat)
    (flag : Bool) (g' : Game) (e : Option MoveError)
    (hinv : FlagInv g)
    (hgen : g.history = [] → x < g.width → y < g.height →
      ((gen x y).length = g.height * g.width ∧
       ∀ i, i < (gen x y).length → ((gen x y).getD i default).flagged = false))
    (hc : ClickTile gen fuel g x y flag = some (g', e)) :
    FlagInv g' := by
  obtain ⟨hW, hH, hF, hE, hL⟩ := hinv
  cases fuel with
  | zero => simp [ClickTile] at hc
  | succ fl =>
    rcases ClickTile_succ_shape gen fl g x y flag (g', e) hc with
      ⟨_, hr⟩ | ⟨_, _, hr⟩ | ⟨hx, hy, hrest⟩
    · have hg' : g' = g := congrArg Prod.fst hr
      rw [hg']
      exact ⟨hW, hH, hF, hE, hL⟩
    · have hg' : g' = g := congrArg Prod.fst hr
      rw [hg']
      exact ⟨hW, hH, hF, hE, hL⟩
    · by_cases hhe : g.history = []
      · -- first move: the generator lays out the grid
        have ht0 : (if g.history.isEmpty then gen x y else latestTiles g) = gen x y := by
          simp [hhe]
        rw [ht0] at hrest
        obtain ⟨hglen, hgfl⟩ := hgen hhe hx hy
        rcases hrest with ⟨hge, _⟩ | ⟨_, g2, happ, hr⟩
        · rw [hE hhe] at hge
          cases hge
        · have hlat1 : latestTiles { g with history := g.history ++ [⟨x, y, flag, gen x y⟩] }
              = gen x y :=
            latestTiles_concat _ g.history ⟨x, y, flag, gen x y⟩ rfl
          have hne1 : ({ g with history := g.history ++ [⟨x, y, flag, gen x y⟩] } : Game).history
              ≠ [] := by simp
          have hidx1 : ({ g with history := g.history ++ [⟨x, y, flag, gen x y⟩] } : Game).width
              * y + x
              < (latestTiles { g with history := g.history ++ [⟨x, y, flag, gen x y⟩] }).length := by
            rw [hlat1, hglen]
            exact idx_lt g.width g.height x y hx hy
          have hflags1 : ({ g with history := g.history ++ [⟨x, y, flag, gen x y⟩] } : Game).flags
              = (latestTiles { g with history := g.history ++ [⟨x, y, flag, gen x y⟩] }).countP
                  (fun t => t.flagged) := by
            rw [hlat1, countP_zero_of_getD _ _ hgfl]
            show g.flags = 0
            rw [hF, latestTiles_nil g hhe]
            rfl
          have hbound1 : (latestTiles
              { g with history := g.history ++ [⟨x, y, flag, gen x y⟩] }).length ≤ 62500 := by
            rw [hlat1, hglen]
            have := Nat.mul_le_mul hH hW
            omega
          obtain ⟨hbf, hblen, hbw, hbh⟩ :=
            branch_flags gen fl _ x y flag g2 hne1 hidx1 hflags1 hbound1 happ
          have hg' : g' = winCheck g.history.length g2 := congrArg Prod.fst hr
          refine flagInv_wrap g g.history.length g2 g' hg' hW hH hbf hbw hbh ?_
            (by omega) (by omega)
          rw [hblen, hlat1, hglen]
      · -- later move: the latest grid is already laid out
        have ht0 : (if g.history.isEmpty then gen x y else latestTiles g) = latestTiles g := by
          simp [hhe]
        rw [ht0] at hrest
        rcases hrest with ⟨_, hr⟩ | ⟨_, g2, happ, hr⟩
        · -- rejected as not active: only the history grew
          have hg' : g' = { g with history := g.history ++ [⟨x, y, flag, latestTiles g⟩] } :=
            congrArg Prod.fst hr
          have hlat1 : latestTiles { g with history := g.history ++ [⟨x, y, flag, latestTiles g⟩] }
              = latestTiles g :=
            latestTiles_concat _ g.history ⟨x, y, flag, latestTiles g⟩ rfl
          refine ⟨by rw [hg']; exact hW, by rw [hg']; exact hH, ?_, ?_, ?_⟩
          · rw [hg', hlat1]
            exact hF
          · intro habs
            rw [hg'] at habs
            simp at habs
          · intro _
            rw [hg', hlat1]
            exact hL hhe
        · have hlat1 : latestTiles { g with history := g.history ++ [⟨x, y, flag, latestTiles g⟩] }
              = latestTiles g :=
            latestTiles_concat _ g.history ⟨x, y, flag, latestTiles g⟩ rfl
          have hne1 : ({ g with history := g.history ++ [⟨x, y, flag, latestTiles g⟩] }
              : Game).history ≠ [] := by simp
          have hidx1 : ({ g with history := g.history ++ [⟨x, y, flag, latestTiles g⟩] }
              : Game).width * y + x
              < (latestTiles
                  { g with history := g.history ++ [⟨x, y, flag, latestTiles g⟩] }).length := by
            rw [hlat1, hL hhe]
            exact idx_lt g.width g.height x y hx hy
          have hflags1 : ({ g with history := g.history ++ [⟨x, y, flag, latestTiles g⟩] }
              : Game).flags
              = (latestTiles
                  { g with history := g.history ++ [⟨x, y, flag, latestTiles g⟩] }).countP
                  (fun t => t.flagged) := by
            rw [hlat1]
            exact hF
          have hbound1 : (latestTiles
              { g with history := g.history ++ [⟨x, y, flag, latestTiles g⟩] }).length
              ≤ 62500 := by
            rw [hlat1, hL hhe]
            have := Nat.mul_le_mul hH hW
            omega
          obtain ⟨hbf, hblen, hbw, hbh⟩ :=
            branch_flags gen fl _ x y flag g2 hne1 hidx1 hflags1 hbound1 happ
          have hg' : g' = winCheck g.history.length g2 := congrArg Prod.fst hr
          refine flagInv_wrap g g.history.length g2 g' hg' hW hH hbf hbw hbh ?_
            (by omega) (by omega)
          rw [hblen, hlat1]
          exact hL hhe

/-- C8: in every state reachable from `NewGame` by any sequence of
`ClickTile` moves, the `flags` counter equals the number of tiles of the
latest grid whose `flagged` bit is set: flagging increments it, unflagging
decrements it, and no other operation changes either side. -/
theorem C8_flag_invariant (g : Game) (h : Reach g) :
    g.flags = (latestTiles g).countP (fun t => t.flagged) := by
  have hinv : FlagInv g := by
    induction h with
    | init w2 h2 m2 g0 hg0 =>
      obtain ⟨hrec, hw, hh250, _⟩ := NewGame_spec w2 h2 m2 g0 hg0
      subst hrec
      exact ⟨hw, hh250, rfl, fun _ => rfl, fun habs => absurd rfl habs⟩
    | step g0 gen fuel x y flag g' e hreach hgenc hc ih =>
      refine flagInv_step gen fuel g0 x y flag g' e ih ?_ hc
      intro hhe hx hy
      obtain ⟨s, pf, hgt⟩ := hgenc hhe
      obtain ⟨hlen, _, _, hfc⟩ := generateTiles_spec g0.width g0.height g0.mines x y s pf
        (gen x y) (by omega) (by omega) hx hy hgt
      exact ⟨hlen, fun i hi => (hfc i hi).1⟩
  exact hinv.2.2.1

/-- C8 witness: the invariant evaluated at the concrete reachable state
`G1` (a 2×2 board after its first reveal). -/
theorem C8_witness : G1.flags = (latestTiles G1).countP (fun t => t.flagged) :=
  C8_flag_invariant G1
    (Reach.step G0 gen10 9 0 0 false G1 none
      (Reach.init 2 2 1 G0 (by decide))
      (fun _ => ⟨s10, 4, by decide⟩)
      (by decide))
